import Mathlib

set_option maxHeartbeats 1000000

/-!
Shallow embedding of the ternary-tree DNF minimizer:
`LiteralValue` (src/literal_value.rs), `ProductTerm` (src/product_term.rs),
`TernaryNode` (src/ternary_node.rs) and the TT-Min orchestration
(src/ternary_tree_minimization.rs).

Modelling conventions: mutation in the source is modelled by explicit state
passing; `LinkedHashMap<String, LiteralValue>` by an insertion-ordered
association list; `HashSet<ProductTerm>` by a list deduplicated with the
source's `PartialEq`; a panic (`unwrap` on `None`) by `Option.none`.
-/

/-- The error message of `ProductTerm::merge`. -/
def merge_error_msg : String := "Cannot merge product terms!"

/-- The error message of `TernaryTreeMinimization::build_and_merge`. -/
def too_few_vars_msg : String := "Too few variables to build tree!"

/-- Placeholder for the `unwrap` of `var_order_copy.get(0)`; never reached when
the order had at least two variables. -/
def no_variable : String := ""

inductive LiteralValue : Type where
  | True : LiteralValue
  | False : LiteralValue
  | DontCare : LiteralValue
deriving DecidableEq, Repr

/-- `impl Hash for LiteralValue`: the value each variant feeds to the hasher. -/
def literal_hash : LiteralValue → Nat
  | .True => 1
  | .False => 0
  | .DontCare => 2

structure ProductTerm where
  literals : List (String × LiteralValue)
deriving DecidableEq, Repr

deriving instance DecidableEq for Except

namespace ProductTerm

/-- `ProductTerm::new` -/
def new : ProductTerm := ⟨[]⟩

/-- Key membership in the underlying `LinkedHashMap` (`contains_key`). -/
def hasKey (t : ProductTerm) (k : String) : Bool :=
  t.literals.any (fun p => p.1 == k)

/-- `LinkedHashMap::get`. -/
def lookup (t : ProductTerm) (k : String) : Option LiteralValue :=
  (t.literals.find? (fun p => p.1 == k)).map Prod.snd

/-- `ProductTerm::add_literal` (`LinkedHashMap::insert`): an existing key keeps
its position and gets the new value; a new key is appended at the back. -/
def add_literal (t : ProductTerm) (name : String) (literal : LiteralValue) : ProductTerm :=
  if t.hasKey name then
    ⟨t.literals.map (fun p => if p.1 == name then (p.1, literal) else p)⟩
  else
    ⟨t.literals ++ [(name, literal)]⟩

/-- `ProductTerm::is_empty` -/
def is_empty (t : ProductTerm) : Bool := t.literals.isEmpty

/-- `ProductTerm::remove_last` (`LinkedHashMap::pop_back` followed by
`unwrap`): `none` models the panic on an empty term. -/
def remove_last (t : ProductTerm) : Option (ProductTerm × LiteralValue) :=
  match t.literals.getLast? with
  | some p => some (⟨t.literals.dropLast⟩, p.2)
  | none => none

/-- `ProductTerm::new_with_literals` -/
def new_with_literals (literals : List (String × LiteralValue)) : ProductTerm :=
  literals.foldl (fun t p => t.add_literal p.1 p.2) new

/-- `ProductTerm::is_prefix_of` -/
def is_prefix_of (t other : ProductTerm) : Bool :=
  t.literals.all (fun p => decide (other.lookup p.1 = some p.2))

/-- `ProductTerm::is_prefix_of_any` -/
def is_prefix_of_any (t : ProductTerm) (terms : List ProductTerm) : Bool :=
  terms.any (fun product_term => t.is_prefix_of product_term)

/-- `ProductTerm::matches` -/
def matches' (t term : ProductTerm) : Bool :=
  t.is_prefix_of term && t.literals.length == term.literals.length

/-- `ProductTerm::matches_any` -/
def matches_any (t : ProductTerm) (terms : List ProductTerm) : Bool :=
  terms.any (fun product_term => t.matches' product_term)

/-- `impl PartialEq for ProductTerm` -/
def beq (t other : ProductTerm) : Bool :=
  t.literals.length == other.literals.length &&
    t.literals.all (fun p => other.hasKey p.1 && decide (other.lookup p.1 = some p.2))

/-- `ProductTerm::can_merge` -/
def can_merge (t other : ProductTerm) : Bool :=
  t.literals.length == other.literals.length &&
    t.literals.all (fun p => other.hasKey p.1)

/-- The `for` loop of `ProductTerm::merge`, with the loop state
(`combined_literals`, `new_product_term`) passed explicitly. -/
def merge_go (other : ProductTerm) :
    List (String × LiteralValue) → Nat → ProductTerm → Except String ProductTerm
  | [], _, acc => .ok acc
  | p :: rest, combined_literals, acc =>
    match other.lookup p.1 with
    | some other_literal =>
      if (other_literal = LiteralValue.DontCare ∧ ¬ p.2 = LiteralValue.DontCare) ∨
          (p.2 = LiteralValue.DontCare ∧ ¬ other_literal = LiteralValue.DontCare) then
        .error merge_error_msg
      else if ¬ other_literal = p.2 then
        if combined_literals + 1 > 1 then .error merge_error_msg
        else merge_go other rest (combined_literals + 1) (acc.add_literal p.1 LiteralValue.DontCare)
      else merge_go other rest combined_literals (acc.add_literal p.1 p.2)
    | none => merge_go other rest combined_literals acc

/-- `ProductTerm::merge` -/
def merge (t other : ProductTerm) : Except String ProductTerm :=
  if ¬ t.can_merge other then .error merge_error_msg
  else merge_go other t.literals 0 new

/-- `impl Hash for ProductTerm` feeds the `(variable, literal)` pairs to the
hasher sequentially in insertion order; two terms hash identically exactly
when they feed the hasher the same stream. -/
def hash_stream (t : ProductTerm) : List (String × Nat) :=
  t.literals.map (fun p => (p.1, literal_hash p.2))

/-- The `LinkedHashMap` representation invariant: keys are pairwise distinct.
Every `ProductTerm` reachable through the source API satisfies it. -/
def wf (t : ProductTerm) : Prop := (t.literals.map Prod.fst).Nodup

end ProductTerm

/-- An assignment satisfies a term when it agrees with every concrete
(non-DontCare) literal of the term (spec section 8, "covering"). -/
def satisfies (a : String → Bool) (t : ProductTerm) : Prop :=
  ∀ k v, t.lookup k = some v →
    (v = LiteralValue.True → a k = true) ∧ (v = LiteralValue.False → a k = false)

/-- `e` covers `u`: every assignment satisfying `u` satisfies `e`. -/
def covers (e u : ProductTerm) : Prop :=
  ∀ a, satisfies a u → satisfies a e

structure TernaryNode where
  var : Option String        -- field `variable` in the source (a Lean keyword)
  built_term : Option ProductTerm
deriving DecidableEq, Repr

namespace TernaryTreeMinimization

/-- `HashSet::insert` under the source's `PartialEq`. -/
def insert_term (s : List ProductTerm) (t : ProductTerm) : List ProductTerm :=
  if s.any (fun u => u.beq t) then s else s ++ [t]

/-- `HashSet::contains` under the source's `PartialEq`. -/
def contains (s : List ProductTerm) (t : ProductTerm) : Bool :=
  s.any (fun u => u.beq t)

/-- `remove_last` at the call sites where the source `unwrap`s right after an
`add_literal`; the term there is never empty, so the fallback is unreachable. -/
def remove_last_or_self (t : ProductTerm) : ProductTerm :=
  match t.remove_last with
  | some (rest, _) => rest
  | none => t

/-- `TernaryTreeMinimization::build_node`: extends `product_term`, keeps the
node when the extension is a prefix of some term of `terms`, then undoes the
extension; returns the kept node (if any) and the term state after
`remove_last`. -/
def build_node (product_term : ProductTerm) (terms : List ProductTerm)
    (literal : LiteralValue) (literal_variable node_variable : String) :
    Option TernaryNode × ProductTerm :=
  let pt := product_term.add_literal literal_variable literal
  (if pt.is_prefix_of_any terms then some ⟨some node_variable, some pt⟩ else none,
    remove_last_or_self pt)

/-- One node's three `build_node` calls inside the level loop of `build`, in
source order False, DontCare, True, threading the mutated term through. -/
def build_children (current_node : TernaryNode) (terms : List ProductTerm)
    (removed_var node_variable : String) : List TernaryNode :=
  let product_term := current_node.built_term.getD ProductTerm.new
  let f := build_node product_term terms LiteralValue.False removed_var node_variable
  let d := build_node f.2 terms LiteralValue.DontCare removed_var node_variable
  let t := build_node d.2 terms LiteralValue.True removed_var node_variable
  f.1.toList ++ d.1.toList ++ t.1.toList

/-- `TernaryTreeMinimization::build`: the `while variable_order.len() > 1`
loop; returns the frontier nodes and the remaining variable order. -/
def build : List TernaryNode → List String → List ProductTerm →
    List TernaryNode × List String
  | nodes, removed_var :: node_variable :: rest, terms =>
    build
      (nodes.foldl (fun childs n => childs ++ build_children n terms removed_var node_variable) [])
      (node_variable :: rest) terms
  | nodes, variable_order, _ => (nodes, variable_order)

/-- `TernaryTreeMinimization::build_term_node` -/
def build_term_node (terms : List ProductTerm) (built_term : ProductTerm)
    (v : String) (literal : LiteralValue) : Option TernaryNode × ProductTerm :=
  let bt := built_term.add_literal v literal
  (if bt.matches_any terms then some ⟨none, some bt⟩ else none,
    remove_last_or_self bt)

/-- The body of the leaf loop of `TernaryTreeMinimization::merge`. -/
def merge_leaf (initial_terms : List ProductTerm) (node_variable : String)
    (final_terms : List ProductTerm) (current_node : TernaryNode) : List ProductTerm :=
  match current_node.built_term with
  | none => final_terms    -- the source `unwrap`s here; `build` always attaches a term
  | some built_term =>
    let f := build_term_node initial_terms built_term node_variable LiteralValue.False
    let d := build_term_node initial_terms f.2 node_variable LiteralValue.DontCare
    let t := build_term_node initial_terms d.2 node_variable LiteralValue.True
    let final_terms := match d.1 with
      | some dont_care => insert_term final_terms (dont_care.built_term.getD ProductTerm.new)
      | none => final_terms
    match t.1, f.1 with
    | some true_child, some false_child =>
      match (false_child.built_term.getD ProductTerm.new).merge
          (true_child.built_term.getD ProductTerm.new) with
      | .ok term => insert_term final_terms term
      | .error _ =>
        insert_term (insert_term final_terms (true_child.built_term.getD ProductTerm.new))
          (false_child.built_term.getD ProductTerm.new)
    | some true_child, none =>
      insert_term final_terms (true_child.built_term.getD ProductTerm.new)
    | none, some false_child =>
      insert_term final_terms (false_child.built_term.getD ProductTerm.new)
    | none, none => final_terms

/-- `TernaryTreeMinimization::merge` -/
def merge (leaves : List TernaryNode) (initial_terms : List ProductTerm)
    (node_variable : String) : List ProductTerm :=
  leaves.foldl (merge_leaf initial_terms node_variable) []

/-- `TernaryTreeMinimization::build_and_merge` -/
def build_and_merge (terms : List ProductTerm) (variable_order : List String) :
    Except String (List ProductTerm) :=
  if variable_order.length < 2 then .error too_few_vars_msg
  else
    let b := build [⟨variable_order.head?, none⟩] variable_order terms
    .ok (merge b.1 terms (b.2.headD no_variable))

/-- The frontier produced by the build step (the `leaves` of `build_and_merge`). -/
def frontier (terms : List ProductTerm) (variable_order : List String) : List TernaryNode :=
  (build [⟨variable_order.head?, none⟩] variable_order terms).1

/-- The variable handed to the merge step of `build_and_merge`
(`var_order_copy.get(0).unwrap()` after `build` consumed the order). -/
def merge_axis (terms : List ProductTerm) (variable_order : List String) : String :=
  (build [⟨variable_order.head?, none⟩] variable_order terms).2.headD no_variable

/-- `TernaryTreeMinimization::rotate` (its `remove(0)` panics on `[]`, but
`apply` only rotates orders that `build_and_merge` accepted, of length ≥ 2). -/
def rotate (old_variable_order : List String) : List String :=
  match old_variable_order with
  | [] => []
  | v :: rest => rest ++ [v]

/-- One iteration of the round loop in `apply`. -/
def apply_round (resulting_terms : List ProductTerm) (var_order : List String) :
    List ProductTerm × List String :=
  match build_and_merge resulting_terms var_order with
  | .ok extracted_terms => (extracted_terms, rotate var_order)
  | .error _ => (resulting_terms, var_order)

/-- The `for _ in 0..number_of_vars + 1` loop of `apply`. -/
def apply_rounds : Nat → List ProductTerm → List String → List ProductTerm × List String
  | 0, s, o => (s, o)
  | n + 1, s, o =>
    let st := apply_round s o
    apply_rounds n st.1 st.2

/-- `TernaryTreeMinimization::apply` -/
def apply (terms : List ProductTerm) (variable_order : List String) :
    Except String (List ProductTerm) :=
  .ok (apply_rounds (variable_order.length + 1) (terms.foldl insert_term []) variable_order).1

end TernaryTreeMinimization

/-! ### Concrete inputs used by the claims -/

def vA : String := "A"
def vB : String := "B"

/-- Input term (A=False, B=True) of spec scenario 1. -/
def s1a : ProductTerm := ⟨[(vA, .False), (vB, .True)]⟩

/-- Input term (A=True, B=False) of spec scenario 1. -/
def s1b : ProductTerm := ⟨[(vA, .True), (vB, .False)]⟩

/-- Input term (A=False, B=False) of spec scenario 1. -/
def s1c : ProductTerm := ⟨[(vA, .False), (vB, .False)]⟩

/-- The input set of spec scenario 1. -/
def scenario1 : List ProductTerm := [s1a, s1b, s1c]

/-- The expected output set of spec scenario 1: {(A=F,B=*), (A=T,B=F)}. -/
def scenario1_output : List ProductTerm :=
  [⟨[(vA, .False), (vB, .DontCare)]⟩, ⟨[(vA, .True), (vB, .False)]⟩]

/-- Input set {(A=F,B=*), (A=F,B=F)} on which a frontier node's DontCare
extension matches the input set while its False extension matches as well. -/
def c2_terms : List ProductTerm :=
  [⟨[(vA, .False), (vB, .DontCare)]⟩, ⟨[(vA, .False), (vB, .False)]⟩]

/-! ### Claim C3: order-independent equality versus order-dependent hashing -/

/-- **C3** (evidence for the defect): two `ProductTerm`s built from the same
variable-to-literal pairs in different insertion orders are equal under the
source's `PartialEq`, yet `impl Hash for ProductTerm` feeds the hasher
different streams, so they hash differently.  The claim that hashing is
consistent with the order-independent equality is violated by the code. -/
theorem c3_equal_terms_hash_differently :
    (ProductTerm.new_with_literals [(vA, .False), (vB, .True)]).beq
        (ProductTerm.new_with_literals [(vB, .True), (vA, .False)]) = true ∧
    ¬ (ProductTerm.new_with_literals [(vA, .False), (vB, .True)]).hash_stream =
        (ProductTerm.new_with_literals [(vB, .True), (vA, .False)]).hash_stream := by
  decide

/-! ### Claim C8: spec scenario 1 -/

/-- **C8**: for the input set {(A=F,B=T), (A=T,B=F), (A=F,B=F)}, presented in
any of its six orders, and variable ordering [A,B], `apply` returns exactly
the set {(A=F,B=*), (A=T,B=F)}, of size 2. -/
theorem c8_scenario1_exact :
    TernaryTreeMinimization.apply [s1a, s1b, s1c] [vA, vB] = .ok scenario1_output ∧
    TernaryTreeMinimization.apply [s1a, s1c, s1b] [vA, vB] = .ok scenario1_output ∧
    TernaryTreeMinimization.apply [s1b, s1a, s1c] [vA, vB] = .ok scenario1_output ∧
    TernaryTreeMinimization.apply [s1b, s1c, s1a] [vA, vB] = .ok scenario1_output ∧
    TernaryTreeMinimization.apply [s1c, s1a, s1b] [vA, vB] = .ok scenario1_output ∧
    TernaryTreeMinimization.apply [s1c, s1b, s1a] [vA, vB] = .ok scenario1_output ∧
    scenario1_output.length = 2 := by
  decide

/-! ### Claim C9: `remove_last` -/

/-- **C9**: on a non-empty `ProductTerm`, `remove_last` removes and returns
the most recently appended literal (the back of the insertion order); on an
empty term it hits the `unwrap` panic (modelled by `none`), so the failure is
immediate, and under the non-emptiness precondition that branch is
unreachable (`remove_last` returns `some`). -/
theorem c9_remove_last_spec (t : ProductTerm) :
    (t.is_empty = true → t.remove_last = none) ∧
    (t.is_empty = false →
      ∃ p, t.literals.getLast? = some p ∧
        t.remove_last = some (⟨t.literals.dropLast⟩, p.2)) := by
  constructor
  · intro h
    have hnil : t.literals = [] := by
      cases hl : t.literals with
      | nil => rfl
      | cons a l => rw [ProductTerm.is_empty, hl] at h; simp at h
    rw [ProductTerm.remove_last, hnil]
    rfl
  · intro h
    have hne : t.literals ≠ [] := by
      intro hnil
      rw [ProductTerm.is_empty, hnil] at h
      simp at h
    exact ⟨t.literals.getLast hne, List.getLast?_eq_getLast_of_ne_nil hne,
      by rw [ProductTerm.remove_last, List.getLast?_eq_getLast_of_ne_nil hne]⟩

/-- Witness for C9 at the concrete non-empty term {A:True}. -/
theorem c9_remove_last_spec_witness :
    (⟨[(vA, .True)]⟩ : ProductTerm).is_empty = false ∧
    (∃ p, ([( vA, LiteralValue.True)]).getLast? = some p ∧
      (⟨[(vA, .True)]⟩ : ProductTerm).remove_last =
        some (⟨([(vA, LiteralValue.True)]).dropLast⟩, p.2)) :=
  ⟨by decide, (c9_remove_last_spec ⟨[(vA, .True)]⟩).2 (by decide)⟩

/-! ### Claim C10: append/undo round trip -/

/-- **C10**: for a variable `v` not present in `t`, `add_literal v x` followed
by `remove_last` returns `x` and restores `t` exactly (same literal list,
hence same variable set and insertion order). -/
theorem c10_add_remove_roundtrip (t : ProductTerm) (v : String) (x : LiteralValue)
    (h : t.hasKey v = false) :
    (t.add_literal v x).remove_last = some (t, x) := by
  rw [ProductTerm.add_literal, if_neg (by simp [h]), ProductTerm.remove_last]
  simp

/-- Witness for C10: appending B:True to {A:False} and undoing it. -/
theorem c10_add_remove_roundtrip_witness :
    (⟨[(vA, .False)]⟩ : ProductTerm).hasKey vB = false ∧
    ((⟨[(vA, .False)]⟩ : ProductTerm).add_literal vB .True).remove_last =
      some (⟨[(vA, .False)]⟩, .True) :=
  ⟨by decide, c10_add_remove_roundtrip ⟨[(vA, .False)]⟩ vB .True (by decide)⟩

/-! ### Counterexamples: the deferred variable, the DontCare short-circuit,
and prefix-based coverage -/

/-- **C1** (counterexample): for scenario 1 with ordering [A,B], the variable
handed to the merge step is B — the *last* variable of the ordering — not
`order[0] = A`, and the build step extended the frontier terms over A (the
first variable) rather than over all variables other than `order[0]`. -/
theorem c1_counterexample :
    ¬ TernaryTreeMinimization.merge_axis scenario1 [vA, vB] = vA ∧
    TernaryTreeMinimization.merge_axis scenario1 [vA, vB] = vB ∧
    (TernaryTreeMinimization.frontier scenario1 [vA, vB]).all
      (fun n => decide ((n.built_term.getD ProductTerm.new).literals.map Prod.fst = [vA]))
      = true := by
  decide

/-- **C2** (counterexample): on the input set {(A=F,B=*), (A=F,B=F)} with
ordering [A,B] the build step yields the single frontier node with term
{A:F}; its DontCare extension on the merge axis B matches the input set, yet
`build_and_merge` also emits (A=F,B=F), the term arising from that node's
False extension — the matching DontCare extension does not suppress the
False/True work. -/
theorem c2_counterexample :
    TernaryTreeMinimization.frontier c2_terms [vA, vB] =
      [⟨some vB, some ⟨[(vA, .False)]⟩⟩] ∧
    ((⟨[(vA, .False)]⟩ : ProductTerm).add_literal vB .DontCare).matches_any c2_terms
      = true ∧
    TernaryTreeMinimization.build_and_merge c2_terms [vA, vB] =
      .ok [⟨[(vA, .False), (vB, .DontCare)]⟩, ⟨[(vA, .False), (vB, .False)]⟩] := by
  decide

/-- **C7** (counterexample): on scenario 1 the input term (A=F,B=T) is related
by `is_prefix_of` to *no* output term of `apply`, in either direction —
`is_prefix_of` demands identical literal values, and the output generalises
B to DontCare. -/
theorem c7_counterexample :
    TernaryTreeMinimization.apply scenario1 [vA, vB] = .ok scenario1_output ∧
    scenario1_output.all
      (fun o => !o.is_prefix_of s1a && !s1a.is_prefix_of o) = true := by
  decide

/-! ### Helper lemmas: lookup, keys and well-formedness -/

/-- In a list with pairwise-distinct keys, `find?` by key locates exactly the
member with that key. -/
theorem find?_eq_some_of_nodup_keys {l : List (String × LiteralValue)}
    {k : String} {v : LiteralValue} (hw : (l.map Prod.fst).Nodup)
    (h : (k, v) ∈ l) : l.find? (fun p => p.1 == k) = some (k, v) := by
  induction l with
  | nil => simp at h
  | cons a l ih =>
    simp only [List.map_cons, List.nodup_cons] at hw
    rcases List.mem_cons.mp h with h | h
    · subst h
      simp [List.find?_cons_of_pos]
    · have hne : (a.1 == k) = false := by
        rw [beq_eq_false_iff_ne]
        intro he
        exact hw.1 (he ▸ List.mem_map_of_mem Prod.fst h)
      rw [List.find?_cons_of_neg _ (by simp [hne]), ih hw.2 h]

namespace ProductTerm

theorem mem_of_lookup_eq_some {t : ProductTerm} {k : String} {v : LiteralValue}
    (h : t.lookup k = some v) : (k, v) ∈ t.literals := by
  rw [lookup] at h
  cases hf : t.literals.find? (fun p => p.1 == k) with
  | none => rw [hf] at h; simp at h
  | some p =>
    rw [hf] at h
    have hp := List.find?_some hf
    have hm := List.mem_of_find?_eq_some hf
    simp at h hp
    rw [← hp, ← h, Prod.mk.eta]
    exact hm

theorem lookup_eq_some_of_mem {t : ProductTerm} {k : String} {v : LiteralValue}
    (hw : t.wf) (h : (k, v) ∈ t.literals) : t.lookup k = some v := by
  rw [lookup, find?_eq_some_of_nodup_keys hw h]
  rfl

theorem hasKey_iff_mem_keys {t : ProductTerm} {k : String} :
    t.hasKey k = true ↔ k ∈ t.literals.map Prod.fst := by
  rw [hasKey, List.any_eq_true]
  constructor
  · rintro ⟨p, hp, he⟩
    simp at he
    exact he ▸ List.mem_map_of_mem Prod.fst hp
  · intro hk
    rcases List.mem_map.mp hk with ⟨p, hp, he⟩
    exact ⟨p, hp, by simp [he]⟩

theorem hasKey_iff_lookup_isSome {t : ProductTerm} {k : String} :
    t.hasKey k = true ↔ ∃ v, t.lookup k = some v := by
  rw [hasKey, List.any_eq_true, lookup]
  cases hf : t.literals.find? (fun p => p.1 == k) with
  | none =>
    constructor
    · rintro ⟨p, hp, he⟩
      rw [List.find?_eq_none] at hf
      exact absurd he (by simpa using hf p hp)
    · rintro ⟨v, hv⟩
      simp at hv
  | some q =>
    constructor
    · intro _
      exact ⟨q.2, rfl⟩
    · intro _
      exact ⟨q, List.mem_of_find?_eq_some hf, by simpa using List.find?_some hf⟩

theorem lookup_eq_none_of_hasKey_eq_false {t : ProductTerm} {k : String}
    (h : t.hasKey k = false) : t.lookup k = none := by
  cases hv : t.lookup k with
  | none => rfl
  | some v =>
    have := hasKey_iff_lookup_isSome.mpr ⟨v, hv⟩
    rw [h] at this
    cases this

theorem hasKey_eq_true_of_lookup {t : ProductTerm} {k : String} {v : LiteralValue}
    (h : t.lookup k = some v) : t.hasKey k = true :=
  hasKey_iff_lookup_isSome.mpr ⟨v, h⟩

/-- `add_literal` with a fresh key is an append. -/
theorem add_literal_fresh {t : ProductTerm} {k : String} {v : LiteralValue}
    (h : t.hasKey k = false) :
    t.add_literal k v = ⟨t.literals ++ [(k, v)]⟩ := by
  rw [add_literal, if_neg (by simp [h])]

theorem literals_append_assoc (l1 l2 : List (String × LiteralValue)) :
    (⟨l1 ++ l2⟩ : ProductTerm).literals = l1 ++ l2 := rfl

theorem wf_new : (new : ProductTerm).wf := by
  rw [wf]; exact List.nodup_nil

/-- Appending a fresh key preserves the key invariant. -/
theorem wf_append_fresh {t : ProductTerm} {k : String} {v : LiteralValue}
    (hw : t.wf) (h : t.hasKey k = false) :
    (⟨t.literals ++ [(k, v)]⟩ : ProductTerm).wf := by
  rw [wf] at hw ⊢
  rw [List.map_append, List.nodup_append]
  refine ⟨hw, List.nodup_singleton k, ?_⟩
  intro x hx hk
  simp at hk
  subst hk
  exact absurd (hasKey_iff_mem_keys.mpr hx) (by simp [h])

/-- `add_literal` preserves the key invariant (the keys either stay the same
or gain one fresh key). -/
theorem wf_add_literal {t : ProductTerm} {k : String} {v : LiteralValue}
    (hw : t.wf) : (t.add_literal k v).wf := by
  rw [add_literal]
  by_cases hk : t.hasKey k = true
  · rw [if_pos hk]
    have he : ((t.literals.map fun p => if p.1 == k then (p.1, v) else p).map Prod.fst)
        = t.literals.map Prod.fst := by
      rw [List.map_map]
      refine List.map_congr_left fun p _ => ?_
      simp only [Function.comp_apply]
      split <;> rfl
    show ((t.literals.map fun p => if p.1 == k then (p.1, v) else p).map Prod.fst).Nodup
    rw [he]
    exact hw
  · rw [if_neg hk]
    exact wf_append_fresh hw (by simpa using hk)

end ProductTerm

/-! ### Helper lemmas: the source's `PartialEq` and semantic covering -/

namespace ProductTerm

theorem beq_eq_true_iff {a b : ProductTerm} :
    a.beq b = true ↔
      a.literals.length = b.literals.length ∧
        ∀ p ∈ a.literals, b.lookup p.1 = some p.2 := by
  rw [beq, Bool.and_eq_true, beq_iff_eq, List.all_eq_true]
  constructor
  · rintro ⟨hl, hp⟩
    refine ⟨hl, fun p hp' => ?_⟩
    have := hp p hp'
    simp at this
    exact this.2
  · rintro ⟨hl, hp⟩
    refine ⟨hl, fun p hp' => ?_⟩
    have := hp p hp'
    simp [this, hasKey_eq_true_of_lookup this]

theorem beq_refl {a : ProductTerm} (ha : a.wf) : a.beq a = true :=
  beq_eq_true_iff.mpr ⟨rfl, fun _ hp => lookup_eq_some_of_mem ha hp⟩

theorem beq_trans {a b c : ProductTerm} (hab : a.beq b = true)
    (hbc : b.beq c = true) : a.beq c = true := by
  rw [beq_eq_true_iff] at hab hbc ⊢
  refine ⟨hab.1.trans hbc.1, fun p hp => ?_⟩
  exact hbc.2 _ (mem_of_lookup_eq_some (hab.2 p hp))

/-- Under the key invariant, two `PartialEq`-equal terms have the same keys
up to permutation and the same value for every key. -/
theorem lookup_eq_of_beq {a b : ProductTerm} (ha : a.wf) (_hb : b.wf)
    (h : a.beq b = true) : ∀ k, a.lookup k = b.lookup k := by
  rw [beq_eq_true_iff] at h
  have hsub : a.literals.map Prod.fst ⊆ b.literals.map Prod.fst := by
    intro k hk
    rcases hasKey_iff_lookup_isSome.mp (hasKey_iff_mem_keys.mpr hk) with ⟨v, hv⟩
    exact hasKey_iff_mem_keys.mp
      (hasKey_eq_true_of_lookup (h.2 _ (mem_of_lookup_eq_some hv)))
  have hperm : List.Perm (a.literals.map Prod.fst) (b.literals.map Prod.fst) :=
    List.Subperm.perm_of_length_le (List.Nodup.subperm ha hsub)
      (by simpa using Nat.le_of_eq h.1.symm)
  intro k
  cases hv : a.lookup k with
  | some v => exact (h.2 _ (mem_of_lookup_eq_some hv)).symm
  | none =>
    have hka : a.hasKey k = false := by
      cases hk : a.hasKey k with
      | false => rfl
      | true =>
        rcases hasKey_iff_lookup_isSome.mp hk with ⟨v, hv'⟩
        rw [hv] at hv'
        cases hv'
    have hkb : b.hasKey k = false := by
      cases hk : b.hasKey k with
      | false => rfl
      | true =>
        have := hperm.mem_iff.mpr (hasKey_iff_mem_keys.mp hk)
        rw [← hasKey_iff_mem_keys] at this
        rw [hka] at this
        cases this
    exact (lookup_eq_none_of_hasKey_eq_false hkb).symm

end ProductTerm

theorem satisfies_of_lookup_eq {a : String → Bool} {e t : ProductTerm}
    (h : ∀ k, e.lookup k = t.lookup k) (hs : satisfies a t) : satisfies a e :=
  fun k v hv => hs k v (h k ▸ hv)

theorem covers_of_beq {e t u : ProductTerm} (he : e.wf) (ht : t.wf)
    (hbeq : e.beq t = true) (hc : covers t u) : covers e u :=
  fun a ha => satisfies_of_lookup_eq (ProductTerm.lookup_eq_of_beq he ht hbeq) (hc a ha)

theorem covers_of_lookup_imp {e u : ProductTerm}
    (h : ∀ k v, e.lookup k = some v → v = LiteralValue.DontCare ∨ u.lookup k = some v) :
    covers e u := by
  intro a ha k v hv
  rcases h k v hv with hdc | hu
  · subst hdc
    exact ⟨(fun h' => nomatch h'), (fun h' => nomatch h')⟩
  · exact ha k v hu

theorem covers_trans {e f u : ProductTerm} (hfe : covers f e) (heu : covers e u) :
    covers f u :=
  fun a ha => hfe a (heu a ha)

theorem covers_refl (u : ProductTerm) : covers u u := fun _ ha => ha

/-! ### Helper lemmas: characterising `ProductTerm::merge` -/

/-- Pair-level test used by the merge rejection conditions: the two sides of
a shared variable disagree about DontCare. -/
def pair_dc_mismatch (b : ProductTerm) (p : String × LiteralValue) : Bool :=
  match b.lookup p.1 with
  | some ol => decide ((ol = LiteralValue.DontCare ∧ ¬ p.2 = LiteralValue.DontCare) ∨
      (p.2 = LiteralValue.DontCare ∧ ¬ ol = LiteralValue.DontCare))
  | none => false

/-- Pair-level test: both sides concrete and different. -/
def pair_diff (b : ProductTerm) (p : String × LiteralValue) : Bool :=
  match b.lookup p.1 with
  | some ol => decide (¬ ol = p.2 ∧ ¬ ol = LiteralValue.DontCare ∧ ¬ p.2 = LiteralValue.DontCare)
  | none => false

/-- Some shared variable has DontCare on one side and a concrete value on the
other. -/
def dc_mismatch (a b : ProductTerm) : Bool :=
  a.literals.any (pair_dc_mismatch b)

/-- The number of shared variables whose concrete values differ. -/
def diff_count (a b : ProductTerm) : Nat :=
  (a.literals.filter (pair_diff b)).length

/-- The two terms have exactly the same variable names. -/
def same_variable_set (a b : ProductTerm) : Bool :=
  a.literals.all (fun p => b.hasKey p.1) && b.literals.all (fun p => a.hasKey p.1)

theorem merge_go_isOk (b : ProductTerm) :
    ∀ (l : List (String × LiteralValue)) (c : Nat) (acc : ProductTerm),
      (ProductTerm.merge_go b l c acc).isOk =
        (!l.any (pair_dc_mismatch b) &&
          decide ((l.filter (pair_diff b)).length = 0 ∨
            c + (l.filter (pair_diff b)).length ≤ 1)) := by
  intro l
  induction l with
  | nil => intro c acc; simp [ProductTerm.merge_go, Except.isOk, Except.toBool]
  | cons p rest ih =>
    intro c acc
    cases hb : b.lookup p.1 with
    | none =>
      simp only [ProductTerm.merge_go, hb]
      rw [ih]
      have hm : pair_dc_mismatch b p = false := by simp [pair_dc_mismatch, hb]
      have hd : pair_diff b p = false := by simp [pair_diff, hb]
      rw [List.any_cons, List.filter_cons, if_neg (by simp [hd]), hm]
      simp
    | some ol =>
      simp only [ProductTerm.merge_go, hb]
      by_cases h1 : (ol = LiteralValue.DontCare ∧ ¬ p.2 = LiteralValue.DontCare) ∨
          (p.2 = LiteralValue.DontCare ∧ ¬ ol = LiteralValue.DontCare)
      · rw [if_pos h1]
        have hm : pair_dc_mismatch b p = true := by
          simp only [pair_dc_mismatch, hb]
          simpa using h1
        rw [List.any_cons, hm]
        simp [Except.isOk, Except.toBool]
      · rw [if_neg h1]
        have hm : pair_dc_mismatch b p = false := by
          simp only [pair_dc_mismatch, hb]
          simpa using h1
        by_cases h2 : ¬ ol = p.2
        · have hcon : ¬ ol = LiteralValue.DontCare ∧ ¬ p.2 = LiteralValue.DontCare := by
            constructor <;> intro hdc
            · by_cases hp : p.2 = LiteralValue.DontCare
              · exact h2 (hdc.trans hp.symm)
              · exact h1 (Or.inl ⟨hdc, hp⟩)
            · by_cases hp : ol = LiteralValue.DontCare
              · exact h2 (hp.trans hdc.symm)
              · exact h1 (Or.inr ⟨hdc, hp⟩)
          have hd : pair_diff b p = true := by
            simp [pair_diff, hb, h2, hcon.1, hcon.2]
          rw [if_pos h2]
          by_cases h3 : c + 1 > 1
          · rw [if_pos h3]
            rw [List.any_cons, List.filter_cons, if_pos hd, hm]
            have hrhs : decide ((p :: List.filter (pair_diff b) rest).length = 0 ∨
                c + (p :: List.filter (pair_diff b) rest).length ≤ 1) = false := by
              rw [decide_eq_false_iff_not]
              simp only [List.length_cons]
              omega
            rw [hrhs]
            simp [Except.isOk, Except.toBool]
          · rw [if_neg h3]
            rw [ih]
            rw [List.any_cons, List.filter_cons, if_pos hd, hm]
            simp only [Bool.false_or, List.length_cons]
            have harith : ((List.filter (pair_diff b) rest).length = 0 ∨
                  c + 1 + (List.filter (pair_diff b) rest).length ≤ 1) ↔
                ((List.filter (pair_diff b) rest).length + 1 = 0 ∨
                  c + ((List.filter (pair_diff b) rest).length + 1) ≤ 1) := by
              omega
            rw [decide_eq_decide.mpr harith]
        · rw [if_neg h2]
          rw [ih]
          have hd : pair_diff b p = false := by
            simp only [pair_diff, hb]
            simpa using fun h => absurd h h2
          rw [List.any_cons, List.filter_cons, if_neg (by simp [hd]), hm]
          simp

/-- The entry each surviving pair of `self` contributes to the merge result. -/
def merge_entry (b : ProductTerm) (p : String × LiteralValue) :
    Option (String × LiteralValue) :=
  (b.lookup p.1).map (fun ol => (p.1, if ol = p.2 then p.2 else LiteralValue.DontCare))

theorem merge_go_ok_val (b : ProductTerm) :
    ∀ (l : List (String × LiteralValue)) (c : Nat) (acc r : ProductTerm),
      (l.map Prod.fst).Nodup → (∀ p ∈ l, acc.hasKey p.1 = false) →
      ProductTerm.merge_go b l c acc = .ok r →
      r.literals = acc.literals ++ l.filterMap (merge_entry b) := by
  intro l
  induction l with
  | nil =>
    intro c acc r _ _ h
    rw [ProductTerm.merge_go] at h
    cases h
    simp
  | cons p rest ih =>
    intro c acc r hnd hfresh h
    simp only [List.map_cons, List.nodup_cons] at hnd
    cases hb : b.lookup p.1 with
    | none =>
      simp only [ProductTerm.merge_go, hb] at h
      rw [ih c acc r hnd.2 (fun q hq => hfresh q (List.mem_cons_of_mem p hq)) h]
      rw [List.filterMap_cons]
      simp [merge_entry, hb]
    | some ol =>
      simp only [ProductTerm.merge_go, hb] at h
      have hfp : acc.hasKey p.1 = false := hfresh p (List.mem_cons_self p rest)
      by_cases h1 : (ol = LiteralValue.DontCare ∧ ¬ p.2 = LiteralValue.DontCare) ∨
          (p.2 = LiteralValue.DontCare ∧ ¬ ol = LiteralValue.DontCare)
      · rw [if_pos h1] at h
        cases h
      · rw [if_neg h1] at h
        have hfresh' : ∀ x : LiteralValue, ∀ q ∈ rest,
            (acc.add_literal p.1 x).hasKey q.1 = false := by
          intro x q hq
          rw [ProductTerm.add_literal_fresh hfp]
          have h1' := hfresh q (List.mem_cons_of_mem p hq)
          rw [ProductTerm.hasKey] at h1' ⊢
          simp only [List.any_append, List.any_cons, List.any_nil, Bool.or_false]
          rw [h1']
          simp only [Bool.false_or, beq_eq_false_iff_ne]
          intro he
          exact hnd.1 (by rw [he]; exact List.mem_map_of_mem Prod.fst hq)
        by_cases h2 : ¬ ol = p.2
        · rw [if_pos h2] at h
          by_cases h3 : c + 1 > 1
          · rw [if_pos h3] at h
            cases h
          · rw [if_neg h3] at h
            rw [ih (c + 1) _ r hnd.2 (hfresh' LiteralValue.DontCare) h]
            rw [ProductTerm.add_literal_fresh hfp, List.filterMap_cons]
            simp only [merge_entry, hb, Option.map_some']
            rw [if_neg (fun he => h2 he)]
            simp
        · rw [if_neg h2] at h
          rw [ih c _ r hnd.2 (hfresh' p.2) h]
          rw [ProductTerm.add_literal_fresh hfp, List.filterMap_cons]
          simp only [merge_entry, hb, Option.map_some']
          rw [if_pos (by simpa using h2)]
          simp

namespace ProductTerm

theorem hasKey_eq_false_of_lookup_eq_none {t : ProductTerm} {k : String}
    (h : t.lookup k = none) : t.hasKey k = false := by
  cases hk : t.hasKey k with
  | false => rfl
  | true =>
    rcases hasKey_iff_lookup_isSome.mp hk with ⟨v, hv⟩
    rw [h] at hv
    cases hv

theorem can_merge_of_ok {a b r : ProductTerm} (h : a.merge b = .ok r) :
    a.can_merge b = true := by
  by_cases hc : a.can_merge b = true
  · exact hc
  · rw [merge, if_pos hc] at h
    cases h

theorem merge_isOk_eq (a b : ProductTerm) :
    (a.merge b).isOk =
      (a.can_merge b && !dc_mismatch a b && decide (diff_count a b ≤ 1)) := by
  rw [merge]
  by_cases hc : a.can_merge b = true
  · rw [if_neg (by simpa using hc), merge_go_isOk, hc]
    rw [dc_mismatch, diff_count]
    have hdec : decide ((a.literals.filter (pair_diff b)).length = 0 ∨
          0 + (a.literals.filter (pair_diff b)).length ≤ 1)
        = decide ((a.literals.filter (pair_diff b)).length ≤ 1) := by
      rw [decide_eq_decide]
      omega
    rw [hdec]
    simp [Bool.and_assoc]
  · rw [if_pos hc]
    have : a.can_merge b = false := by simpa using hc
    simp [Except.isOk, Except.toBool, this]

theorem merge_ok_val {a b r : ProductTerm} (ha : a.wf) (h : a.merge b = .ok r) :
    r.literals = a.literals.filterMap (merge_entry b) := by
  have hc := can_merge_of_ok h
  rw [merge, if_neg (by simp [hc])] at h
  have := merge_go_ok_val b a.literals 0 new r ha (fun _ _ => rfl) h
  simpa using this

theorem can_merge_keys {a b : ProductTerm} (h : a.can_merge b = true) :
    (∀ p ∈ a.literals, b.hasKey p.1 = true) ∧
      a.literals.length = b.literals.length := by
  rw [can_merge, Bool.and_eq_true, beq_iff_eq, List.all_eq_true] at h
  exact ⟨h.2, h.1⟩

theorem filterMap_merge_entry_keys {b : ProductTerm} :
    ∀ l : List (String × LiteralValue), (∀ p ∈ l, b.hasKey p.1 = true) →
      (l.filterMap (merge_entry b)).map Prod.fst = l.map Prod.fst ∧
      (l.filterMap (merge_entry b)).length = l.length := by
  intro l
  induction l with
  | nil => intro _; simp
  | cons p rest ih =>
    intro hall
    rcases hasKey_iff_lookup_isSome.mp (hall p (List.mem_cons_self p rest)) with ⟨y, hy⟩
    have ihr := ih (fun q hq => hall q (List.mem_cons_of_mem p hq))
    rw [List.filterMap_cons]
    simp only [merge_entry, hy, Option.map_some']
    simp [ihr.1, ihr.2]

theorem merge_keys_of_ok {a b r : ProductTerm} (ha : a.wf) (h : a.merge b = .ok r) :
    r.literals.map Prod.fst = a.literals.map Prod.fst ∧
      r.literals.length = a.literals.length := by
  rw [merge_ok_val ha h]
  exact filterMap_merge_entry_keys a.literals (can_merge_keys (can_merge_of_ok h)).1

theorem merge_wf_of_ok {a b r : ProductTerm} (ha : a.wf) (h : a.merge b = .ok r) :
    r.wf := by
  rw [wf, (merge_keys_of_ok ha h).1]
  exact ha

theorem merge_lookup_of_ok {a b r : ProductTerm} (ha : a.wf) (h : a.merge b = .ok r)
    (k : String) :
    r.lookup k = (a.lookup k).bind
      (fun x => (b.lookup k).map (fun y => if x = y then x else LiteralValue.DontCare)) := by
  have hv := merge_ok_val ha h
  have hwr := merge_wf_of_ok ha h
  cases hx : a.lookup k with
  | none =>
    have hka := hasKey_eq_false_of_lookup_eq_none hx
    have hkr : r.hasKey k = false := by
      cases hk : r.hasKey k with
      | false => rfl
      | true =>
        have := hasKey_iff_mem_keys.mp hk
        rw [(merge_keys_of_ok ha h).1] at this
        rw [← hasKey_iff_mem_keys] at this
        rw [hka] at this
        cases this
    rw [lookup_eq_none_of_hasKey_eq_false hkr]
    rfl
  | some x =>
    have hm : (k, x) ∈ a.literals := mem_of_lookup_eq_some hx
    rcases hasKey_iff_lookup_isSome.mp ((can_merge_keys (can_merge_of_ok h)).1 _ hm)
      with ⟨y, hy⟩
    have hval : (k, if y = x then x else LiteralValue.DontCare) ∈ r.literals := by
      rw [hv]
      exact List.mem_filterMap.mpr ⟨(k, x), hm, by simp [merge_entry, hy]⟩
    rw [lookup_eq_some_of_mem hwr hval, hy]
    simp only [Option.some_bind, Option.map_some']
    by_cases hxy : x = y
    · subst hxy
      simp
    · rw [if_neg hxy, if_neg (fun he => hxy he.symm)]

end ProductTerm

namespace ProductTerm

theorem keys_subset_iff_all {a b : ProductTerm} :
    a.literals.all (fun p => b.hasKey p.1) = true ↔
      a.literals.map Prod.fst ⊆ b.literals.map Prod.fst := by
  rw [List.all_eq_true]
  constructor
  · intro h k hk
    rcases List.mem_map.mp hk with ⟨p, hp, he⟩
    exact he ▸ hasKey_iff_mem_keys.mp (h p hp)
  · intro h p hp
    exact hasKey_iff_mem_keys.mpr (h (List.mem_map_of_mem Prod.fst hp))

theorem can_merge_eq_same_variable_set {a b : ProductTerm} (ha : a.wf) (hb : b.wf) :
    a.can_merge b = same_variable_set a b := by
  rw [Bool.eq_iff_iff, can_merge, same_variable_set]
  simp only [Bool.and_eq_true, beq_iff_eq]
  constructor
  · rintro ⟨hlen, hsub⟩
    refine ⟨hsub, ?_⟩
    have hperm : List.Perm (a.literals.map Prod.fst) (b.literals.map Prod.fst) :=
      List.Subperm.perm_of_length_le (List.Nodup.subperm ha (keys_subset_iff_all.mp hsub))
        (by simpa using Nat.le_of_eq hlen.symm)
    rw [keys_subset_iff_all]
    intro k hk
    exact hperm.mem_iff.mpr hk
  · rintro ⟨hab, hba⟩
    refine ⟨?_, hab⟩
    have h1 := List.Nodup.subperm ha (keys_subset_iff_all.mp hab)
    have h2 := List.Nodup.subperm hb (keys_subset_iff_all.mp hba)
    have := (List.Subperm.antisymm h1 h2).length_eq
    simpa using this

/-- `wf` is the decidable `Nodup` condition on the key list. -/
instance wf_decidable (t : ProductTerm) : Decidable t.wf :=
  inferInstanceAs (Decidable ((t.literals.map Prod.fst).Nodup))

end ProductTerm

/-! ### Claim C4: the merge success condition and result shape -/

/-- **C4**: `a.merge(b)` succeeds iff `a` and `b` have exactly the same
variable set, no shared variable mixes DontCare with a concrete value, and at
most one variable has differing concrete values; on success each variable
keeps its common value and the differing variable becomes DontCare; two empty
terms merge into an empty term. -/
theorem c4_merge_specification (a b : ProductTerm) (ha : a.wf) (hb : b.wf) :
    ((a.merge b).isOk = true ↔
      (same_variable_set a b = true ∧ dc_mismatch a b = false ∧ diff_count a b ≤ 1)) ∧
    (∀ r, a.merge b = .ok r → ∀ k,
      r.lookup k = (a.lookup k).bind
        (fun x => (b.lookup k).map (fun y => if x = y then x else LiteralValue.DontCare))) ∧
    ProductTerm.new.merge ProductTerm.new = .ok ProductTerm.new := by
  refine ⟨?_, ?_, by decide⟩
  · rw [ProductTerm.merge_isOk_eq, ProductTerm.can_merge_eq_same_variable_set ha hb]
    simp [Bool.and_eq_true, and_assoc]
  · intro r hr k
    exact ProductTerm.merge_lookup_of_ok ha hr k

/-- Witness for C4 at spec scenario 3: merge({A:F,B:T}, {A:F,B:F}). -/
theorem c4_merge_specification_witness :
    (⟨[(vA, .False), (vB, .True)]⟩ : ProductTerm).wf ∧
    (⟨[(vA, .False), (vB, .False)]⟩ : ProductTerm).wf ∧
    (((⟨[(vA, .False), (vB, .True)]⟩ : ProductTerm).merge
        ⟨[(vA, .False), (vB, .False)]⟩).isOk = true ↔
      (same_variable_set ⟨[(vA, .False), (vB, .True)]⟩ ⟨[(vA, .False), (vB, .False)]⟩ = true ∧
        dc_mismatch ⟨[(vA, .False), (vB, .True)]⟩ ⟨[(vA, .False), (vB, .False)]⟩ = false ∧
        diff_count ⟨[(vA, .False), (vB, .True)]⟩ ⟨[(vA, .False), (vB, .False)]⟩ ≤ 1)) :=
  ⟨by decide, by decide,
    (c4_merge_specification ⟨[(vA, .False), (vB, .True)]⟩ ⟨[(vA, .False), (vB, .False)]⟩
      (by decide) (by decide)).1⟩

/-! ### Claim C5: merge commutativity -/

namespace ProductTerm

theorem same_variable_set_symm (a b : ProductTerm) :
    same_variable_set a b = same_variable_set b a := by
  rw [same_variable_set, same_variable_set]
  exact Bool.and_comm _ _

theorem dc_mismatch_iff {a b : ProductTerm} (ha : a.wf) :
    dc_mismatch a b = true ↔ ∃ k x y, a.lookup k = some x ∧ b.lookup k = some y ∧
      ((x = LiteralValue.DontCare ∧ ¬ y = LiteralValue.DontCare) ∨
        (y = LiteralValue.DontCare ∧ ¬ x = LiteralValue.DontCare)) := by
  rw [dc_mismatch, List.any_eq_true]
  constructor
  · rintro ⟨p, hp, hpred⟩
    rw [pair_dc_mismatch] at hpred
    cases hy : b.lookup p.1 with
    | none => rw [hy] at hpred; cases hpred
    | some y =>
      rw [hy] at hpred
      simp at hpred
      exact ⟨p.1, p.2, y, lookup_eq_some_of_mem ha hp, hy, by tauto⟩
  · rintro ⟨k, x, y, hx, hy, hc⟩
    refine ⟨(k, x), mem_of_lookup_eq_some hx, ?_⟩
    rw [pair_dc_mismatch]
    have hy' : b.lookup (k, x).1 = some y := hy
    rw [hy']
    simp only [decide_eq_true_eq]
    tauto

theorem dc_mismatch_symm {a b : ProductTerm} (ha : a.wf) (hb : b.wf) :
    dc_mismatch a b = dc_mismatch b a := by
  rw [Bool.eq_iff_iff, dc_mismatch_iff ha, dc_mismatch_iff hb]
  constructor
  · rintro ⟨k, x, y, hx, hy, hc⟩
    exact ⟨k, y, x, hy, hx, by tauto⟩
  · rintro ⟨k, y, x, hy, hx, hc⟩
    exact ⟨k, x, y, hx, hy, by tauto⟩

theorem mem_diff_keys {a b : ProductTerm} {k : String} (ha : a.wf) :
    k ∈ (a.literals.filter (pair_diff b)).map Prod.fst ↔
      ∃ x y, a.lookup k = some x ∧ b.lookup k = some y ∧
        ¬ x = y ∧ ¬ x = LiteralValue.DontCare ∧ ¬ y = LiteralValue.DontCare := by
  constructor
  · intro hk
    rcases List.mem_map.mp hk with ⟨p, hp, he⟩
    rcases List.mem_filter.mp hp with ⟨hpa, hpred⟩
    rw [pair_diff] at hpred
    cases hy : b.lookup p.1 with
    | none => rw [hy] at hpred; cases hpred
    | some y =>
      rw [hy] at hpred
      simp only [decide_eq_true_eq] at hpred
      subst he
      exact ⟨p.2, y, lookup_eq_some_of_mem ha hpa, hy,
        fun h => hpred.1 h.symm, hpred.2.2, hpred.2.1⟩
  · rintro ⟨x, y, hx, hy, hxy, hxd, hyd⟩
    refine List.mem_map.mpr ⟨(k, x), List.mem_filter.mpr ⟨mem_of_lookup_eq_some hx, ?_⟩, rfl⟩
    rw [pair_diff]
    have hy' : b.lookup (k, x).1 = some y := hy
    rw [hy']
    simp only [decide_eq_true_eq]
    exact ⟨fun h => hxy h.symm, hyd, hxd⟩

theorem diff_keys_nodup {a b : ProductTerm} (ha : a.wf) :
    ((a.literals.filter (pair_diff b)).map Prod.fst).Nodup :=
  ((List.filter_sublist a.literals).map Prod.fst).nodup ha

theorem diff_count_symm {a b : ProductTerm} (ha : a.wf) (hb : b.wf) :
    diff_count a b = diff_count b a := by
  rw [diff_count, diff_count, ← List.length_map _ Prod.fst, ← List.length_map _ Prod.fst]
  have hsub1 : (a.literals.filter (pair_diff b)).map Prod.fst ⊆
      (b.literals.filter (pair_diff a)).map Prod.fst := by
    intro k hk
    rcases (mem_diff_keys ha).mp hk with ⟨x, y, hx, hy, hxy, hxd, hyd⟩
    exact (mem_diff_keys hb).mpr ⟨y, x, hy, hx, fun h => hxy h.symm, hyd, hxd⟩
  have hsub2 : (b.literals.filter (pair_diff a)).map Prod.fst ⊆
      (a.literals.filter (pair_diff b)).map Prod.fst := by
    intro k hk
    rcases (mem_diff_keys hb).mp hk with ⟨y, x, hy, hx, hxy, hyd, hxd⟩
    exact (mem_diff_keys ha).mpr ⟨x, y, hx, hy, fun h => hxy h.symm, hxd, hyd⟩
  exact (List.Subperm.antisymm ((diff_keys_nodup ha).subperm hsub1)
    ((diff_keys_nodup hb).subperm hsub2)).length_eq

end ProductTerm

/-- **C5**: merge is commutative: `a.merge(b)` succeeds exactly when
`b.merge(a)` succeeds, and on success the two results are equal under the
source's order-independent `PartialEq`. -/
theorem c5_merge_commutative (a b : ProductTerm) (ha : a.wf) (hb : b.wf) :
    ((a.merge b).isOk = (b.merge a).isOk) ∧
    (∀ r s, a.merge b = .ok r → b.merge a = .ok s → r.beq s = true) := by
  constructor
  · rw [ProductTerm.merge_isOk_eq, ProductTerm.merge_isOk_eq,
      ProductTerm.can_merge_eq_same_variable_set ha hb,
      ProductTerm.can_merge_eq_same_variable_set hb ha,
      ProductTerm.same_variable_set_symm,
      ProductTerm.dc_mismatch_symm ha hb,
      ProductTerm.diff_count_symm ha hb]
  · intro r s hr hs
    have hwr := ProductTerm.merge_wf_of_ok ha hr
    have hlookup : ∀ k, r.lookup k = s.lookup k := by
      intro k
      rw [ProductTerm.merge_lookup_of_ok ha hr k, ProductTerm.merge_lookup_of_ok hb hs k]
      cases hx : a.lookup k with
      | none => cases hy : b.lookup k <;> rfl
      | some x =>
        cases hy : b.lookup k with
        | none => rfl
        | some y =>
          simp only [Option.some_bind, Option.map_some']
          by_cases hxy : x = y
          · subst hxy
            simp
          · rw [if_neg hxy, if_neg (fun h => hxy h.symm)]
    refine ProductTerm.beq_eq_true_iff.mpr ⟨?_, ?_⟩
    · rw [(ProductTerm.merge_keys_of_ok ha hr).2, (ProductTerm.merge_keys_of_ok hb hs).2,
        (ProductTerm.can_merge_keys (ProductTerm.can_merge_of_ok hr)).2]
    · intro p hp
      rw [← hlookup p.1]
      exact ProductTerm.lookup_eq_some_of_mem hwr hp

/-- Witness for C5 at the pair ({A:F,B:T}, {A:F,B:F}). -/
theorem c5_merge_commutative_witness :
    (⟨[(vA, .False), (vB, .True)]⟩ : ProductTerm).wf ∧
    (⟨[(vA, .False), (vB, .False)]⟩ : ProductTerm).wf ∧
    ((⟨[(vA, .False), (vB, .True)]⟩ : ProductTerm).merge
        ⟨[(vA, .False), (vB, .False)]⟩).isOk =
      ((⟨[(vA, .False), (vB, .False)]⟩ : ProductTerm).merge
        ⟨[(vA, .False), (vB, .True)]⟩).isOk :=
  ⟨by decide, by decide,
    (c5_merge_commutative ⟨[(vA, .False), (vB, .True)]⟩ ⟨[(vA, .False), (vB, .False)]⟩
      (by decide) (by decide)).1⟩

/-! ### Claim C6: `apply` absorbs the only internal failure -/

namespace TernaryTreeMinimization

theorem build_and_merge_isOk (terms : List ProductTerm) (vo : List String) :
    (build_and_merge terms vo).isOk = decide (2 ≤ vo.length) := by
  rw [build_and_merge]
  by_cases h : vo.length < 2
  · rw [if_pos h]
    simp [Except.isOk, Except.toBool]
    omega
  · rw [if_neg h]
    simp [Except.isOk, Except.toBool]
    omega

theorem apply_round_of_short {terms : List ProductTerm} {vo : List String}
    (h : vo.length < 2) : apply_round terms vo = (terms, vo) := by
  rw [apply_round, build_and_merge, if_pos h]

theorem apply_rounds_of_short {vo : List String} (h : vo.length < 2) :
    ∀ (n : Nat) (s : List ProductTerm), apply_rounds n s vo = (s, vo) := by
  intro n
  induction n with
  | zero => intro s; rfl
  | succ n ih =>
    intro s
    rw [apply_rounds, apply_round_of_short h]
    exact ih s

theorem contains_insert_term (s : List ProductTerm) (t u : ProductTerm) :
    contains (insert_term s t) u = (contains s u || t.beq u) := by
  rw [insert_term]
  by_cases h : s.any (fun w => w.beq t) = true
  · rw [if_pos h]
    cases hbu : t.beq u with
    | false => simp
    | true =>
      rcases List.any_eq_true.mp h with ⟨w, hw, hwt⟩
      have : contains s u = true :=
        List.any_eq_true.mpr ⟨w, hw, ProductTerm.beq_trans hwt hbu⟩
      rw [contains] at this
      rw [contains, this]
      rfl
  · rw [if_neg h, contains, contains, List.any_append]
    simp

theorem contains_foldl_insert :
    ∀ (l : List ProductTerm) (acc : List ProductTerm) (t : ProductTerm),
      contains (l.foldl insert_term acc) t = (contains acc t || contains l t) := by
  intro l
  induction l with
  | nil => intro acc t; simp [contains]
  | cons x rest ih =>
    intro acc t
    rw [List.foldl_cons, ih, contains_insert_term]
    rw [show contains (x :: rest) t = (x.beq t || contains rest t) from List.any_cons]
    rw [Bool.or_assoc]

end TernaryTreeMinimization

/-- **C6**: `build_and_merge` fails exactly when the ordering has fewer than 2
variables; `apply` always returns `Ok`; a failed round leaves the working set
and the ordering unchanged; consequently for orderings of length 0 or 1 the
returned set is equal (as a set under the source's `PartialEq`) to the input
set. -/
theorem c6_apply_absorbs_failures (terms : List ProductTerm) (vo : List String) :
    ((TernaryTreeMinimization.build_and_merge terms vo).isOk = decide (2 ≤ vo.length)) ∧
    (∃ r, TernaryTreeMinimization.apply terms vo = .ok r) ∧
    (vo.length < 2 →
      TernaryTreeMinimization.apply_round terms vo = (terms, vo) ∧
      ∀ r, TernaryTreeMinimization.apply terms vo = .ok r →
        ∀ t, TernaryTreeMinimization.contains r t =
          TernaryTreeMinimization.contains terms t) := by
  refine ⟨TernaryTreeMinimization.build_and_merge_isOk terms vo, ⟨_, rfl⟩, fun h => ⟨?_, ?_⟩⟩
  · exact TernaryTreeMinimization.apply_round_of_short h
  · intro r hr t
    rw [TernaryTreeMinimization.apply,
      TernaryTreeMinimization.apply_rounds_of_short h] at hr
    cases hr
    rw [TernaryTreeMinimization.contains_foldl_insert]
    simp [TernaryTreeMinimization.contains]

/-- Witness for C6: with the one-variable ordering [A], a round is a no-op and
`apply` preserves the scenario-1 set. -/
theorem c6_apply_absorbs_failures_witness :
    TernaryTreeMinimization.apply_round scenario1 [vA] = (scenario1, [vA]) ∧
    ∀ r, TernaryTreeMinimization.apply scenario1 [vA] = .ok r →
      ∀ t, TernaryTreeMinimization.contains r t =
        TernaryTreeMinimization.contains scenario1 t :=
  (c6_apply_absorbs_failures scenario1 [vA]).2.2 (by decide)

/-! ### Helper lemmas: the build step -/

theorem mem_foldl_append {α β : Type} (f : α → List β) (l : List α) :
    ∀ (init : List β) (x : β),
      (x ∈ l.foldl (fun acc n => acc ++ f n) init) ↔ (x ∈ init ∨ ∃ n ∈ l, x ∈ f n) := by
  induction l with
  | nil => intro init x; simp
  | cons a rest ih =>
    intro init x
    rw [List.foldl_cons, ih, List.mem_append]
    constructor
    · rintro ((h | h) | ⟨m, hm, hx⟩)
      · exact Or.inl h
      · exact Or.inr ⟨a, List.mem_cons_self a rest, h⟩
      · exact Or.inr ⟨m, List.mem_cons_of_mem a hm, hx⟩
    · rintro (h | ⟨m, hm, hx⟩)
      · exact Or.inl (Or.inl h)
      · rcases List.mem_cons.mp hm with he | hm'
        · subst he
          exact Or.inl (Or.inr hx)
        · exact Or.inr ⟨m, hm', hx⟩

namespace TernaryTreeMinimization

theorem remove_last_or_self_append (l : List (String × LiteralValue))
    (p : String × LiteralValue) :
    remove_last_or_self ⟨l ++ [p]⟩ = ⟨l⟩ := by
  rw [remove_last_or_self, ProductTerm.remove_last]
  simp only [List.getLast?_concat, List.dropLast_concat]

theorem build_node_fresh {pt : ProductTerm} {lv : String} (terms : List ProductTerm)
    (l : LiteralValue) (nv : String) (h : pt.hasKey lv = false) :
    build_node pt terms l lv nv =
      (if (⟨pt.literals ++ [(lv, l)]⟩ : ProductTerm).is_prefix_of_any terms then
          some ⟨some nv, some ⟨pt.literals ++ [(lv, l)]⟩⟩ else none,
        pt) := by
  simp only [build_node, ProductTerm.add_literal_fresh h, remove_last_or_self_append]

/-- The (zero or one) children the level loop generates for one node and one
literal value, once the threading of the mutated term is resolved. -/
def child_for (pt : ProductTerm) (terms : List ProductTerm) (rv nv : String)
    (l : LiteralValue) : List TernaryNode :=
  if (⟨pt.literals ++ [(rv, l)]⟩ : ProductTerm).is_prefix_of_any terms then
    [⟨some nv, some ⟨pt.literals ++ [(rv, l)]⟩⟩] else []

theorem build_children_fresh {n : TernaryNode} (terms : List ProductTerm)
    {rv : String} (nv : String)
    (h : (n.built_term.getD ProductTerm.new).hasKey rv = false) :
    build_children n terms rv nv =
      child_for (n.built_term.getD ProductTerm.new) terms rv nv LiteralValue.False ++
      child_for (n.built_term.getD ProductTerm.new) terms rv nv LiteralValue.DontCare ++
      child_for (n.built_term.getD ProductTerm.new) terms rv nv LiteralValue.True := by
  simp only [build_children, build_node_fresh terms _ _ h]
  rw [child_for, child_for, child_for]
  congr 1
  · congr 1
    · split <;> rfl
    · split <;> rfl
  · split <;> rfl

theorem mem_child_for {pt : ProductTerm} {terms : List ProductTerm}
    {rv nv : String} {l : LiteralValue} {c : TernaryNode} :
    c ∈ child_for pt terms rv nv l ↔
      ((⟨pt.literals ++ [(rv, l)]⟩ : ProductTerm).is_prefix_of_any terms = true ∧
        c = ⟨some nv, some ⟨pt.literals ++ [(rv, l)]⟩⟩) := by
  rw [child_for]
  split
  · simp [*]
  · simp
    intro hc
    exact absurd hc (by assumption)

theorem mem_build_children_fresh {n : TernaryNode} {terms : List ProductTerm}
    {rv nv : String} {c : TernaryNode}
    (h : (n.built_term.getD ProductTerm.new).hasKey rv = false) :
    c ∈ build_children n terms rv nv ↔
      ∃ l : LiteralValue,
        (⟨(n.built_term.getD ProductTerm.new).literals ++ [(rv, l)]⟩ :
            ProductTerm).is_prefix_of_any terms = true ∧
        c = ⟨some nv, some ⟨(n.built_term.getD ProductTerm.new).literals ++ [(rv, l)]⟩⟩ := by
  rw [build_children_fresh terms nv h, List.mem_append, List.mem_append]
  constructor
  · rintro ((hc | hc) | hc) <;> rcases mem_child_for.mp hc with ⟨hp, he⟩
    · exact ⟨LiteralValue.False, hp, he⟩
    · exact ⟨LiteralValue.DontCare, hp, he⟩
    · exact ⟨LiteralValue.True, hp, he⟩
  · rintro ⟨l, hp, he⟩
    cases l with
    | False => exact Or.inl (Or.inl (mem_child_for.mpr ⟨hp, he⟩))
    | DontCare => exact Or.inl (Or.inr (mem_child_for.mpr ⟨hp, he⟩))
    | True => exact Or.inr (mem_child_for.mpr ⟨hp, he⟩)

theorem build_order (terms : List ProductTerm) :
    ∀ (vo : List String) (nodes : List TernaryNode), vo ≠ [] →
      (build nodes vo terms).2 = [vo.getLastD no_variable] := by
  intro vo
  induction vo with
  | nil => intro nodes h; exact absurd rfl h
  | cons v rest ih =>
    intro nodes _
    cases rest with
    | nil => rfl
    | cons w rest' =>
      rw [build, ih _ (by simp)]
      simp [List.getLastD_eq_getLast?, List.getLast?_cons_cons]

theorem build_keys (terms : List ProductTerm) :
    ∀ (vo : List String) (nodes : List TernaryNode) (done : List String),
      (done ++ vo.dropLast).Nodup →
      (∀ n ∈ nodes, ∃ p, n.built_term = some p ∧ p.literals.map Prod.fst = done) →
      ∀ n ∈ (build nodes vo terms).1,
        ∃ p, n.built_term = some p ∧
          p.literals.map Prod.fst = done ++ vo.dropLast := by
  intro vo
  induction vo with
  | nil =>
    intro nodes done _ hinv n hn
    rcases hinv n hn with ⟨p, h1, h2⟩
    exact ⟨p, h1, by simpa using h2⟩
  | cons v rest ih =>
    intro nodes done hnd hinv n hn
    cases rest with
    | nil =>
      rcases hinv n hn with ⟨p, h1, h2⟩
      exact ⟨p, h1, by simpa using h2⟩
    | cons w rest' =>
      rw [build] at hn
      have hdl : (v :: w :: rest').dropLast = v :: (w :: rest').dropLast := by
        simp
      have hnd' : ((done ++ [v]) ++ (w :: rest').dropLast).Nodup := by
        rw [List.append_assoc, List.singleton_append, ← hdl]
        exact hnd
      have hv_not_done : v ∉ done := by
        rw [hdl] at hnd
        intro hv
        rcases List.nodup_append.mp hnd with ⟨_, _, hdisj⟩
        exact hdisj hv (List.mem_cons_self v _)
      rw [hdl, List.append_cons]
      refine ih _ (done ++ [v]) hnd' ?_ n hn
      intro c hc
      rcases (mem_foldl_append (fun m => build_children m terms v w) nodes [] c).mp hc
        with hinit | ⟨m, hm, hcm⟩
      · cases hinit
      · rcases hinv m hm with ⟨q, hq, hkeys⟩
        have hq' : m.built_term.getD ProductTerm.new = q := by rw [hq]; rfl
        have hfresh : (m.built_term.getD ProductTerm.new).hasKey v = false := by
          rw [hq']
          cases hk : q.hasKey v with
          | false => rfl
          | true =>
            have := ProductTerm.hasKey_iff_mem_keys.mp hk
            rw [hkeys] at this
            exact absurd this hv_not_done
        rcases (mem_build_children_fresh hfresh).mp hcm with ⟨l, _, he⟩
        subst he
        refine ⟨_, rfl, ?_⟩
        rw [hq']
        show (q.literals ++ [(v, l)]).map Prod.fst = done ++ [v]
        rw [List.map_append, hkeys]
        rfl

/-- Every frontier node carries a term whose key list is exactly the order
minus its last variable. -/
theorem frontier_keys (terms : List ProductTerm) (vo : List String)
    (h2 : 2 ≤ vo.length) (hnd : vo.Nodup) :
    ∀ n ∈ frontier terms vo, ∃ p, n.built_term = some p ∧
      p.literals.map Prod.fst = vo.dropLast := by
  cases vo with
  | nil => simp at h2
  | cons v tail =>
    cases tail with
    | nil => simp at h2
    | cons w rest =>
      intro n hn
      rw [frontier, build] at hn
      have hdl : (v :: w :: rest).dropLast = v :: (w :: rest).dropLast := by simp
      rw [hdl]
      have := build_keys terms (w :: rest) _ [v]
        (by
          rw [List.singleton_append, ← hdl]
          exact List.Sublist.nodup (List.dropLast_sublist _) hnd)
        (by
          intro c hc
          rcases (mem_foldl_append
            (fun m => build_children m terms v w)
            [⟨(v :: w :: rest).head?, none⟩] [] c).mp hc with hinit | ⟨m, hm, hcm⟩
          · cases hinit
          · have hm' : m = ⟨(v :: w :: rest).head?, none⟩ := by simpa using hm
            subst hm'
            have hfresh : ((⟨(v :: w :: rest).head?, none⟩ :
                TernaryNode).built_term.getD ProductTerm.new).hasKey v = false := rfl
            rcases (mem_build_children_fresh hfresh).mp hcm
              with ⟨l, _, he⟩
            subst he
            exact ⟨_, rfl, rfl⟩)
        n hn
      rcases this with ⟨p, h1, h2'⟩
      exact ⟨p, h1, by simpa using h2'⟩

end TernaryTreeMinimization

/-! ### Claim C1 (amended): the deferred variable is the last one -/

/-- **C1** (amended): for an ordering of length ≥ 2 without duplicates, the
variable handed to the merge step is the *last* variable of the ordering as
captured before the call, the build step extends every frontier term over
exactly the other variables `order[0..len-2]` (in order), and
`build_and_merge` merges that frontier on that axis. -/
theorem c1_build_defers_last_variable (terms : List ProductTerm) (vo : List String)
    (h2 : 2 ≤ vo.length) (hnd : vo.Nodup) :
    TernaryTreeMinimization.merge_axis terms vo = vo.getLastD no_variable ∧
    (∀ n ∈ TernaryTreeMinimization.frontier terms vo, ∃ p, n.built_term = some p ∧
      p.literals.map Prod.fst = vo.dropLast) ∧
    TernaryTreeMinimization.build_and_merge terms vo =
      .ok (TernaryTreeMinimization.merge (TernaryTreeMinimization.frontier terms vo)
        terms (TernaryTreeMinimization.merge_axis terms vo)) := by
  have hne : vo ≠ [] := by
    intro h
    rw [h] at h2
    simp at h2
  refine ⟨?_, ?_, ?_⟩
  · rw [TernaryTreeMinimization.merge_axis,
      TernaryTreeMinimization.build_order terms vo _ hne]
    rfl
  · exact TernaryTreeMinimization.frontier_keys terms vo h2 hnd
  · rw [TernaryTreeMinimization.build_and_merge, if_neg (by omega)]
    rfl

/-- Witness for the amended C1 at scenario 1 with ordering [A,B]. -/
theorem c1_build_defers_last_variable_witness :
    2 ≤ ([vA, vB] : List String).length ∧ ([vA, vB] : List String).Nodup ∧
    (TernaryTreeMinimization.merge_axis scenario1 [vA, vB] =
        ([vA, vB] : List String).getLastD no_variable ∧
      (∀ n ∈ TernaryTreeMinimization.frontier scenario1 [vA, vB], ∃ p,
        n.built_term = some p ∧
          p.literals.map Prod.fst = ([vA, vB] : List String).dropLast) ∧
      TernaryTreeMinimization.build_and_merge scenario1 [vA, vB] =
        .ok (TernaryTreeMinimization.merge
          (TernaryTreeMinimization.frontier scenario1 [vA, vB]) scenario1
          (TernaryTreeMinimization.merge_axis scenario1 [vA, vB]))) :=
  ⟨by decide, by decide,
    c1_build_defers_last_variable scenario1 [vA, vB] (by decide) (by decide)⟩

/-! ### Helper lemmas: the merge step -/

namespace TernaryTreeMinimization

theorem mem_insert_term {s : List ProductTerm} {t u : ProductTerm}
    (h : u ∈ s) : u ∈ insert_term s t := by
  rw [insert_term]
  split
  · exact h
  · exact List.mem_append_left _ h

theorem insert_term_mem_beq (s : List ProductTerm) {t : ProductTerm} (hw : t.wf) :
    ∃ e ∈ insert_term s t, e.beq t = true ∧ (e ∈ s ∨ e = t) := by
  rw [insert_term]
  by_cases h : s.any (fun u => u.beq t) = true
  · rw [if_pos h]
    rcases List.any_eq_true.mp h with ⟨e, he, hbeq⟩
    exact ⟨e, he, hbeq, Or.inl he⟩
  · rw [if_neg h]
    exact ⟨t, List.mem_append_right _ (by simp), ProductTerm.beq_refl hw, Or.inr rfl⟩

theorem mem_insert_term_cases {s : List ProductTerm} {t u : ProductTerm}
    (h : u ∈ insert_term s t) : u ∈ s ∨ u = t := by
  rw [insert_term] at h
  split at h
  · exact Or.inl h
  · rcases List.mem_append.mp h with h1 | h1
    · exact Or.inl h1
    · exact Or.inr (by simpa using h1)

theorem build_term_node_fresh {bt : ProductTerm} {v : String} (terms : List ProductTerm)
    (l : LiteralValue) (h : bt.hasKey v = false) :
    build_term_node terms bt v l =
      (if (⟨bt.literals ++ [(v, l)]⟩ : ProductTerm).matches_any terms then
          some ⟨none, some ⟨bt.literals ++ [(v, l)]⟩⟩ else none,
        bt) := by
  simp only [build_term_node, ProductTerm.add_literal_fresh h, remove_last_or_self_append]

theorem merge_leaf_eq {terms acc : List ProductTerm} {axis : String}
    {n : TernaryNode} {q : ProductTerm}
    (hq : n.built_term = some q) (hfresh : q.hasKey axis = false) :
    merge_leaf terms axis acc n =
      (if (⟨q.literals ++ [(axis, LiteralValue.True)]⟩ : ProductTerm).matches_any terms then
        if (⟨q.literals ++ [(axis, LiteralValue.False)]⟩ : ProductTerm).matches_any terms then
          match (⟨q.literals ++ [(axis, LiteralValue.False)]⟩ : ProductTerm).merge
              ⟨q.literals ++ [(axis, LiteralValue.True)]⟩ with
          | .ok term =>
            insert_term
              (if (⟨q.literals ++ [(axis, LiteralValue.DontCare)]⟩ :
                  ProductTerm).matches_any terms then
                insert_term acc ⟨q.literals ++ [(axis, LiteralValue.DontCare)]⟩ else acc)
              term
          | .error _ =>
            insert_term
              (insert_term
                (if (⟨q.literals ++ [(axis, LiteralValue.DontCare)]⟩ :
                    ProductTerm).matches_any terms then
                  insert_term acc ⟨q.literals ++ [(axis, LiteralValue.DontCare)]⟩ else acc)
                ⟨q.literals ++ [(axis, LiteralValue.True)]⟩)
              ⟨q.literals ++ [(axis, LiteralValue.False)]⟩
        else
          insert_term
            (if (⟨q.literals ++ [(axis, LiteralValue.DontCare)]⟩ :
                ProductTerm).matches_any terms then
              insert_term acc ⟨q.literals ++ [(axis, LiteralValue.DontCare)]⟩ else acc)
            ⟨q.literals ++ [(axis, LiteralValue.True)]⟩
      else
        if (⟨q.literals ++ [(axis, LiteralValue.False)]⟩ : ProductTerm).matches_any terms then
          insert_term
            (if (⟨q.literals ++ [(axis, LiteralValue.DontCare)]⟩ :
                ProductTerm).matches_any terms then
              insert_term acc ⟨q.literals ++ [(axis, LiteralValue.DontCare)]⟩ else acc)
            ⟨q.literals ++ [(axis, LiteralValue.False)]⟩
        else
          (if (⟨q.literals ++ [(axis, LiteralValue.DontCare)]⟩ :
              ProductTerm).matches_any terms then
            insert_term acc ⟨q.literals ++ [(axis, LiteralValue.DontCare)]⟩ else acc)) := by
  rw [merge_leaf, hq]
  simp only [build_term_node_fresh terms _ hfresh]
  by_cases hF : (⟨q.literals ++ [(axis, LiteralValue.False)]⟩ :
      ProductTerm).matches_any terms = true <;>
    by_cases hD : (⟨q.literals ++ [(axis, LiteralValue.DontCare)]⟩ :
      ProductTerm).matches_any terms = true <;>
    by_cases hT : (⟨q.literals ++ [(axis, LiteralValue.True)]⟩ :
      ProductTerm).matches_any terms = true <;>
    simp [hF, hD, hT]

theorem merge_leaf_mono (terms : List ProductTerm) (axis : String)
    (acc : List ProductTerm) (n : TernaryNode) {e : ProductTerm}
    (h : e ∈ acc) : e ∈ merge_leaf terms axis acc n := by
  rw [merge_leaf]
  cases hb : n.built_term with
  | none => exact h
  | some q =>
    dsimp only
    repeat' first
      | exact h
      | apply mem_insert_term
      | split

theorem mem_foldl_merge_leaf_of_mem {terms : List ProductTerm} {axis : String} :
    ∀ (leaves : List TernaryNode) (acc : List ProductTerm) {e : ProductTerm},
      e ∈ acc → e ∈ leaves.foldl (merge_leaf terms axis) acc := by
  intro leaves
  induction leaves with
  | nil => intro acc e h; exact h
  | cons m rest ih =>
    intro acc e h
    rw [List.foldl_cons]
    exact ih _ (merge_leaf_mono terms axis acc m h)

theorem foldl_merge_leaf_emits {terms : List ProductTerm} {axis : String}
    {P : ProductTerm → Prop} :
    ∀ (leaves : List TernaryNode) {n : TernaryNode}, n ∈ leaves →
      (∀ acc, ∃ e ∈ merge_leaf terms axis acc n, P e) →
      ∀ acc, ∃ e ∈ leaves.foldl (merge_leaf terms axis) acc, P e := by
  intro leaves
  induction leaves with
  | nil => intro n hn; cases hn
  | cons m rest ih =>
    intro n hn hemit acc
    rcases List.mem_cons.mp hn with he | hm
    · subst he
      rcases hemit acc with ⟨e, he1, he2⟩
      rw [List.foldl_cons]
      exact ⟨e, mem_foldl_merge_leaf_of_mem rest _ he1, he2⟩
    · rw [List.foldl_cons]
      exact ih hm hemit _

end TernaryTreeMinimization

/-! ### Claim C2 (amended): a matching DontCare extension is always emitted -/

namespace TernaryTreeMinimization

theorem merge_leaf_emits_dc {terms : List ProductTerm} {axis : String}
    {n : TernaryNode} {q : ProductTerm}
    (hq : n.built_term = some q) (hwq : q.wf) (hfresh : q.hasKey axis = false)
    (hm : (q.add_literal axis LiteralValue.DontCare).matches_any terms = true)
    (acc : List ProductTerm) :
    ∃ e ∈ merge_leaf terms axis acc n,
      e.beq (q.add_literal axis LiteralValue.DontCare) = true := by
  rw [ProductTerm.add_literal_fresh hfresh] at hm ⊢
  rw [merge_leaf_eq hq hfresh]
  rcases insert_term_mem_beq acc
      (t := ⟨q.literals ++ [(axis, LiteralValue.DontCare)]⟩)
      (ProductTerm.wf_append_fresh hwq hfresh) with ⟨e, he, hbeq, _⟩
  have hin : e ∈ (if (⟨q.literals ++ [(axis, LiteralValue.DontCare)]⟩ :
      ProductTerm).matches_any terms then
        insert_term acc ⟨q.literals ++ [(axis, LiteralValue.DontCare)]⟩ else acc) := by
    rw [if_pos hm]
    exact he
  by_cases hT : (⟨q.literals ++ [(axis, LiteralValue.True)]⟩ :
      ProductTerm).matches_any terms = true
  · rw [if_pos hT]
    by_cases hF : (⟨q.literals ++ [(axis, LiteralValue.False)]⟩ :
        ProductTerm).matches_any terms = true
    · rw [if_pos hF]
      cases hmr : (⟨q.literals ++ [(axis, LiteralValue.False)]⟩ : ProductTerm).merge
          ⟨q.literals ++ [(axis, LiteralValue.True)]⟩ with
      | ok term => exact ⟨e, mem_insert_term hin, hbeq⟩
      | error msg => exact ⟨e, mem_insert_term (mem_insert_term hin), hbeq⟩
    · rw [if_neg hF]
      exact ⟨e, mem_insert_term hin, hbeq⟩
  · rw [if_neg hT]
    by_cases hF : (⟨q.literals ++ [(axis, LiteralValue.False)]⟩ :
        ProductTerm).matches_any terms = true
    · rw [if_pos hF]
      exact ⟨e, mem_insert_term hin, hbeq⟩
    · rw [if_neg hF]
      exact ⟨e, hin, hbeq⟩

end TernaryTreeMinimization

/-- **C2** (amended): in the merge step, every frontier node whose accumulated
term `q` (with the merge axis fresh in `q`) extended with DontCare on the
merge axis matches the original input set has that don't-care-extended term
emitted into the merge result (up to the source's `PartialEq`); the False and
True extensions are processed as well and may emit further terms. -/
theorem c2_dontcare_match_emitted (leaves : List TernaryNode)
    (terms : List ProductTerm) (axis : String) (n : TernaryNode) (q : ProductTerm)
    (hn : n ∈ leaves) (hq : n.built_term = some q) (hwq : q.wf)
    (hfresh : q.hasKey axis = false)
    (hm : (q.add_literal axis LiteralValue.DontCare).matches_any terms = true) :
    ∃ e ∈ TernaryTreeMinimization.merge leaves terms axis,
      e.beq (q.add_literal axis LiteralValue.DontCare) = true := by
  rw [TernaryTreeMinimization.merge]
  exact TernaryTreeMinimization.foldl_merge_leaf_emits leaves hn
    (fun acc => TernaryTreeMinimization.merge_leaf_emits_dc hq hwq hfresh hm acc) []

/-- Witness for the amended C2 at the counterexample input. -/
theorem c2_dontcare_match_emitted_witness :
    (⟨some vB, some ⟨[(vA, .False)]⟩⟩ : TernaryNode) ∈
      TernaryTreeMinimization.frontier c2_terms [vA, vB] ∧
    ∃ e ∈ TernaryTreeMinimization.merge
        (TernaryTreeMinimization.frontier c2_terms [vA, vB]) c2_terms vB,
      e.beq ((⟨[(vA, .False)]⟩ : ProductTerm).add_literal vB .DontCare) = true :=
  ⟨by decide,
    c2_dontcare_match_emitted (TernaryTreeMinimization.frontier c2_terms [vA, vB])
      c2_terms vB ⟨some vB, some ⟨[(vA, .False)]⟩⟩ ⟨[(vA, .False)]⟩
      (by decide) (by decide) (by decide) (by decide) (by decide)⟩

/-! ### Helper lemmas: restrictions and prefixes, towards coverage -/

namespace ProductTerm

theorem hasKey_append {l1 l2 : List (String × LiteralValue)} {k : String} :
    (⟨l1 ++ l2⟩ : ProductTerm).hasKey k =
      ((⟨l1⟩ : ProductTerm).hasKey k || (⟨l2⟩ : ProductTerm).hasKey k) := by
  rw [hasKey, hasKey, hasKey]
  exact List.any_append

theorem is_prefix_of_append {l1 l2 : List (String × LiteralValue)} {u : ProductTerm} :
    (⟨l1 ++ l2⟩ : ProductTerm).is_prefix_of u =
      ((⟨l1⟩ : ProductTerm).is_prefix_of u && (⟨l2⟩ : ProductTerm).is_prefix_of u) := by
  rw [is_prefix_of, is_prefix_of, is_prefix_of]
  exact List.all_append

theorem is_prefix_of_single {k : String} {x : LiteralValue} {u : ProductTerm}
    (h : u.lookup k = some x) :
    (⟨[(k, x)]⟩ : ProductTerm).is_prefix_of u = true := by
  rw [is_prefix_of]
  simp [h]

end ProductTerm

/-- The restriction of `u` to the variables `vars`, in that order. -/
def restrict (u : ProductTerm) (vars : List String) : List (String × LiteralValue) :=
  vars.filterMap (fun v => (u.lookup v).map (fun x => (v, x)))

theorem restrict_nil (u : ProductTerm) : restrict u [] = [] := rfl

theorem restrict_cons {u : ProductTerm} {v : String} {x : LiteralValue}
    (vars : List String) (hx : u.lookup v = some x) :
    restrict u (v :: vars) = (v, x) :: restrict u vars := by
  rw [restrict, List.filterMap_cons]
  simp [hx, restrict]

theorem restrict_keys {u : ProductTerm} :
    ∀ {vars : List String}, (∀ v ∈ vars, u.hasKey v = true) →
      (restrict u vars).map Prod.fst = vars := by
  intro vars
  induction vars with
  | nil => intro _; rfl
  | cons v rest ih =>
    intro h
    rcases ProductTerm.hasKey_iff_lookup_isSome.mp (h v (List.mem_cons_self v rest))
      with ⟨x, hx⟩
    rw [restrict_cons rest hx]
    simp only [List.map_cons]
    rw [ih (fun w hw => h w (List.mem_cons_of_mem v hw))]

theorem mem_restrict {u : ProductTerm} {vars : List String}
    {p : String × LiteralValue} (h : p ∈ restrict u vars) :
    u.lookup p.1 = some p.2 := by
  rw [restrict] at h
  rcases List.mem_filterMap.mp h with ⟨v, _, hv⟩
  cases hx : u.lookup v with
  | none => rw [hx] at hv; cases hv
  | some x =>
    rw [hx] at hv
    simp at hv
    rw [← hv]
    exact hx

theorem is_prefix_of_restrict {u : ProductTerm} {vars : List String} :
    (⟨restrict u vars⟩ : ProductTerm).is_prefix_of u = true := by
  rw [ProductTerm.is_prefix_of, List.all_eq_true]
  intro p hp
  simp [mem_restrict hp]

namespace TernaryTreeMinimization

theorem build_mem (terms : List ProductTerm) {u : ProductTerm} (hu : u ∈ terms) :
    ∀ (vo : List String) (nodes : List TernaryNode) (p : ProductTerm),
      (∃ n ∈ nodes, n.built_term = some p) →
      p.is_prefix_of u = true →
      (∀ v ∈ vo.dropLast, p.hasKey v = false) →
      (∀ v ∈ vo.dropLast, u.hasKey v = true) →
      vo.dropLast.Nodup →
      ∃ n ∈ (build nodes vo terms).1,
        n.built_term = some ⟨p.literals ++ restrict u vo.dropLast⟩ := by
  intro vo
  induction vo with
  | nil =>
    rintro nodes p ⟨n, hn, hp⟩ _ _ _ _
    refine ⟨n, hn, ?_⟩
    rw [hp]
    simp [restrict]
  | cons v rest ih =>
    rintro nodes p ⟨n, hn, hp⟩ hpre hfresh hkeys hnd
    cases rest with
    | nil =>
      refine ⟨n, hn, ?_⟩
      rw [hp]
      simp [restrict]
    | cons w rest' =>
      have hdl : (v :: w :: rest').dropLast = v :: (w :: rest').dropLast := by simp
      have hv_mem : v ∈ (v :: w :: rest').dropLast := by
        rw [hdl]
        exact List.mem_cons_self v _
      rcases ProductTerm.hasKey_iff_lookup_isSome.mp (hkeys v hv_mem) with ⟨x, hx⟩
      have hfreshp : p.hasKey v = false := hfresh v hv_mem
      have hq' : n.built_term.getD ProductTerm.new = p := by rw [hp]; rfl
      have hext_pre : (⟨p.literals ++ [(v, x)]⟩ : ProductTerm).is_prefix_of u = true := by
        rw [ProductTerm.is_prefix_of_append]
        have h1 : (⟨p.literals⟩ : ProductTerm).is_prefix_of u = true := hpre
        rw [h1, ProductTerm.is_prefix_of_single hx]
        rfl
      have hprefix_any : (⟨p.literals ++ [(v, x)]⟩ : ProductTerm).is_prefix_of_any terms
          = true :=
        List.any_eq_true.mpr ⟨u, hu, hext_pre⟩
      have hc0 : (⟨some w, some ⟨p.literals ++ [(v, x)]⟩⟩ : TernaryNode) ∈
          build_children n terms v w := by
        refine (mem_build_children_fresh ?_).mpr ⟨x, ?_, ?_⟩
        · rw [hq']
          exact hfreshp
        · rw [hq']
          exact hprefix_any
        · rw [hq']
      have hchild : (⟨some w, some ⟨p.literals ++ [(v, x)]⟩⟩ : TernaryNode) ∈
          nodes.foldl (fun acc m => acc ++ build_children m terms v w) [] :=
        (mem_foldl_append _ nodes [] _).mpr (Or.inr ⟨n, hn, hc0⟩)
      have hnd' : (w :: rest').dropLast.Nodup := by
        rw [hdl] at hnd
        exact (List.nodup_cons.mp hnd).2
      have hv_not : v ∉ (w :: rest').dropLast := by
        rw [hdl] at hnd
        exact (List.nodup_cons.mp hnd).1
      have hfresh' : ∀ v' ∈ (w :: rest').dropLast,
          (⟨p.literals ++ [(v, x)]⟩ : ProductTerm).hasKey v' = false := by
        intro v' hv'
        rw [ProductTerm.hasKey_append]
        have h1 : (⟨p.literals⟩ : ProductTerm).hasKey v' = false := by
          have := hfresh v' (by rw [hdl]; exact List.mem_cons_of_mem v hv')
          exact this
        rw [h1]
        have h2 : ((⟨[(v, x)]⟩ : ProductTerm).hasKey v') = false := by
          rw [ProductTerm.hasKey]
          simp only [List.any_cons, List.any_nil, Bool.or_false]
          rw [beq_eq_false_iff_ne]
          intro he
          exact hv_not (he ▸ hv')
        rw [h2]
        rfl
      have hkeys' : ∀ v' ∈ (w :: rest').dropLast, u.hasKey v' = true := fun v' hv' =>
        hkeys v' (by rw [hdl]; exact List.mem_cons_of_mem v hv')
      rw [build]
      rcases ih _ ⟨p.literals ++ [(v, x)]⟩
        ⟨_, hchild, rfl⟩ hext_pre hfresh' hkeys' hnd' with ⟨n', hn', hterm⟩
      refine ⟨n', hn', ?_⟩
      rw [hterm, hdl, restrict_cons _ hx]
      simp
end TernaryTreeMinimization

namespace ProductTerm

theorem lookup_append {l1 l2 : List (String × LiteralValue)} {k : String} :
    (⟨l1 ++ l2⟩ : ProductTerm).lookup k =
      ((⟨l1⟩ : ProductTerm).lookup k).or ((⟨l2⟩ : ProductTerm).lookup k) := by
  rw [lookup, lookup, lookup]
  show (List.find? (fun p => p.1 == k) (l1 ++ l2)).map Prod.snd = _
  rw [List.find?_append]
  cases List.find? (fun p => p.1 == k) l1 <;> simp

theorem lookup_append_left {l1 l2 : List (String × LiteralValue)} {k : String}
    {x : LiteralValue} (h : (⟨l1⟩ : ProductTerm).lookup k = some x) :
    (⟨l1 ++ l2⟩ : ProductTerm).lookup k = some x := by
  rw [lookup_append, h]
  rfl

theorem lookup_append_right {l1 l2 : List (String × LiteralValue)} {k : String}
    (h : (⟨l1⟩ : ProductTerm).hasKey k = false) :
    (⟨l1 ++ l2⟩ : ProductTerm).lookup k = (⟨l2⟩ : ProductTerm).lookup k := by
  rw [lookup_append, lookup_eq_none_of_hasKey_eq_false h]
  rfl

theorem lookup_single {k : String} {x : LiteralValue} :
    (⟨[(k, x)]⟩ : ProductTerm).lookup k = some x := by
  rw [lookup]
  simp

end ProductTerm

theorem filterMap_id_of_all {α : Type} {f : α → Option α} :
    ∀ l : List α, (∀ a ∈ l, f a = some a) → l.filterMap f = l := by
  intro l
  induction l with
  | nil => intro _; rfl
  | cons a rest ih =>
    intro h
    rw [List.filterMap_cons, h a (List.mem_cons_self a rest),
      ih (fun x hx => h x (List.mem_cons_of_mem a hx))]

namespace ProductTerm

theorem merge_false_true {q : ProductTerm} {axis : String} (hwq : q.wf)
    (hfresh : q.hasKey axis = false) :
    (⟨q.literals ++ [(axis, LiteralValue.False)]⟩ : ProductTerm).merge
        ⟨q.literals ++ [(axis, LiteralValue.True)]⟩ =
      .ok ⟨q.literals ++ [(axis, LiteralValue.DontCare)]⟩ := by
  have hlookT : ∀ p ∈ q.literals,
      (⟨q.literals ++ [(axis, LiteralValue.True)]⟩ : ProductTerm).lookup p.1
        = some p.2 := by
    intro p hp
    exact lookup_append_left (lookup_eq_some_of_mem hwq hp)
  have hlookAx :
      (⟨q.literals ++ [(axis, LiteralValue.True)]⟩ : ProductTerm).lookup axis
        = some LiteralValue.True := by
    rw [lookup_append_right hfresh]
    exact lookup_single
  have hcan : (⟨q.literals ++ [(axis, LiteralValue.False)]⟩ : ProductTerm).can_merge
      ⟨q.literals ++ [(axis, LiteralValue.True)]⟩ = true := by
    rw [can_merge, Bool.and_eq_true]
    refine ⟨by simp, List.all_eq_true.mpr ?_⟩
    intro p hp
    rcases List.mem_append.mp hp with hp | hp
    · exact hasKey_eq_true_of_lookup (hlookT p hp)
    · have he : p = (axis, LiteralValue.False) := by simpa using hp
      subst he
      exact hasKey_eq_true_of_lookup hlookAx
  have hwF : (⟨q.literals ++ [(axis, LiteralValue.False)]⟩ : ProductTerm).wf :=
    wf_append_fresh hwq hfresh
  have hentry : ∀ p ∈ q.literals,
      merge_entry ⟨q.literals ++ [(axis, LiteralValue.True)]⟩ p = some p := by
    intro p hp
    rw [merge_entry, hlookT p hp]
    simp
  have hdc : dc_mismatch ⟨q.literals ++ [(axis, LiteralValue.False)]⟩
      ⟨q.literals ++ [(axis, LiteralValue.True)]⟩ = false := by
    cases hany : dc_mismatch ⟨q.literals ++ [(axis, LiteralValue.False)]⟩
        ⟨q.literals ++ [(axis, LiteralValue.True)]⟩ with
    | false => rfl
    | true =>
      rw [dc_mismatch, List.any_eq_true] at hany
      rcases hany with ⟨p, hp, hpred⟩
      rcases List.mem_append.mp hp with hp | hp
      · rw [pair_dc_mismatch, hlookT p hp] at hpred
        simp at hpred
      · have he : p = (axis, LiteralValue.False) := by simpa using hp
        subst he
        rw [pair_dc_mismatch] at hpred
        rw [show (⟨q.literals ++ [(axis, LiteralValue.True)]⟩ : ProductTerm).lookup
            (axis, LiteralValue.False).1 = some LiteralValue.True from hlookAx] at hpred
        simp at hpred
  have hdf : diff_count ⟨q.literals ++ [(axis, LiteralValue.False)]⟩
      ⟨q.literals ++ [(axis, LiteralValue.True)]⟩ ≤ 1 := by
    rw [diff_count]
    show ((q.literals ++ [(axis, LiteralValue.False)]).filter
      (pair_diff ⟨q.literals ++ [(axis, LiteralValue.True)]⟩)).length ≤ 1
    rw [List.filter_append]
    have hq0 : q.literals.filter
        (pair_diff ⟨q.literals ++ [(axis, LiteralValue.True)]⟩) = [] := by
      rw [List.filter_eq_nil_iff]
      intro p hp
      rw [pair_diff, hlookT p hp]
      simp
    rw [hq0]
    simp [List.filter]
    split <;> simp
  have hok : ((⟨q.literals ++ [(axis, LiteralValue.False)]⟩ : ProductTerm).merge
      ⟨q.literals ++ [(axis, LiteralValue.True)]⟩).isOk = true := by
    rw [merge_isOk_eq, hcan, hdc]
    simp [hdf]
  cases hmr : (⟨q.literals ++ [(axis, LiteralValue.False)]⟩ : ProductTerm).merge
      ⟨q.literals ++ [(axis, LiteralValue.True)]⟩ with
  | error e =>
    rw [hmr] at hok
    simp [Except.isOk, Except.toBool] at hok
  | ok r =>
    have hval := merge_ok_val hwF hmr
    have : r.literals = q.literals ++ [(axis, LiteralValue.DontCare)] := by
      rw [hval]
      show (q.literals ++ [(axis, LiteralValue.False)]).filterMap
        (merge_entry ⟨q.literals ++ [(axis, LiteralValue.True)]⟩) = _
      rw [List.filterMap_append, filterMap_id_of_all q.literals hentry]
      congr 1
      rw [List.filterMap_cons]
      rw [show merge_entry ⟨q.literals ++ [(axis, LiteralValue.True)]⟩
          (axis, LiteralValue.False)
          = some (axis, LiteralValue.DontCare) from by rw [merge_entry, hlookAx]; simp]
      rfl
    rw [show r = ⟨q.literals ++ [(axis, LiteralValue.DontCare)]⟩ from by
      cases r
      simpa using this]

end ProductTerm

/-! ### Helper lemmas: shape and covering of the merge-step output -/

theorem dropLast_append_getLastD {vo : List String} (h : vo ≠ []) :
    vo.dropLast ++ [vo.getLastD no_variable] = vo := by
  rw [List.getLastD_eq_getLast?, List.getLast?_eq_getLast_of_ne_nil h]
  simpa using List.dropLast_append_getLast h

namespace ProductTerm

theorem lookup_single_eq {k k' : String} {x : LiteralValue} :
    (⟨[(k, x)]⟩ : ProductTerm).lookup k' = if k = k' then some x else none := by
  rw [lookup]
  by_cases h : k = k'
  · subst h
    simp
  · simp [h]

end ProductTerm

theorem covers_ext {q : ProductTerm} {axis : String} {l : LiteralValue} {u : ProductTerm}
    (hpre : q.is_prefix_of u = true)
    (hl : l = LiteralValue.DontCare ∨ u.lookup axis = some l) :
    covers ⟨q.literals ++ [(axis, l)]⟩ u := by
  apply covers_of_lookup_imp
  intro k v hv
  rw [ProductTerm.lookup_append] at hv
  cases hq : (⟨q.literals⟩ : ProductTerm).lookup k with
  | some w =>
    rw [hq] at hv
    have hvw : w = v := by simpa using hv
    right
    have hm : (k, w) ∈ q.literals := ProductTerm.mem_of_lookup_eq_some hq
    rw [ProductTerm.is_prefix_of, List.all_eq_true] at hpre
    have := hpre (k, w) hm
    simp only [decide_eq_true_eq] at this
    rw [← hvw]
    exact this
  | none =>
    rw [hq] at hv
    simp only [Option.none_or] at hv
    rw [ProductTerm.lookup_single_eq] at hv
    by_cases hk : axis = k
    · rw [if_pos hk] at hv
      have hlv : l = v := by simpa using hv
      rcases hl with hdc | hval
      · left
        rw [← hlv, hdc]
      · right
        rw [← hlv, ← hk]
        exact hval
    · rw [if_neg hk] at hv
      cases hv

namespace TernaryTreeMinimization

theorem merge_leaf_keys {terms acc : List ProductTerm} {axis : String}
    {m : TernaryNode} {K : List String} (hnd : (K ++ [axis]).Nodup)
    (hm : ∀ q, m.built_term = some q → q.literals.map Prod.fst = K)
    (hacc : ∀ e ∈ acc, e.literals.map Prod.fst = K ++ [axis]) :
    ∀ e ∈ merge_leaf terms axis acc m, e.literals.map Prod.fst = K ++ [axis] := by
  cases hb : m.built_term with
  | none =>
    intro e he
    rw [merge_leaf, hb] at he
    exact hacc e he
  | some q =>
    have hkeys := hm q hb
    have hwq : q.wf := by
      rw [ProductTerm.wf, hkeys]
      exact (List.nodup_append.mp hnd).1
    have hfresh : q.hasKey axis = false := by
      cases hk : q.hasKey axis with
      | false => rfl
      | true =>
        have := ProductTerm.hasKey_iff_mem_keys.mp hk
        rw [hkeys] at this
        rcases List.nodup_append.mp hnd with ⟨_, _, hdisj⟩
        exact absurd (List.mem_singleton_self axis) (hdisj this)
    have hkey_ext : ∀ l : LiteralValue,
        (⟨q.literals ++ [(axis, l)]⟩ : ProductTerm).literals.map Prod.fst
          = K ++ [axis] := by
      intro l
      show (q.literals ++ [(axis, l)]).map Prod.fst = K ++ [axis]
      rw [List.map_append, hkeys]
      rfl
    have hacc1 : ∀ e ∈ (if (⟨q.literals ++ [(axis, LiteralValue.DontCare)]⟩ :
        ProductTerm).matches_any terms then
          insert_term acc ⟨q.literals ++ [(axis, LiteralValue.DontCare)]⟩ else acc),
        e.literals.map Prod.fst = K ++ [axis] := by
      split
      · intro e he
        rcases mem_insert_term_cases he with h | h
        · exact hacc e h
        · rw [h]
          exact hkey_ext _
      · exact hacc
    intro e he
    rw [merge_leaf_eq hb hfresh] at he
    by_cases hT : (⟨q.literals ++ [(axis, LiteralValue.True)]⟩ :
        ProductTerm).matches_any terms = true
    · rw [if_pos hT] at he
      by_cases hF : (⟨q.literals ++ [(axis, LiteralValue.False)]⟩ :
          ProductTerm).matches_any terms = true
      · rw [if_pos hF, ProductTerm.merge_false_true hwq hfresh] at he
        rcases mem_insert_term_cases he with h | h
        · exact hacc1 e h
        · rw [h]
          exact hkey_ext _
      · rw [if_neg hF] at he
        rcases mem_insert_term_cases he with h | h
        · exact hacc1 e h
        · rw [h]
          exact hkey_ext _
    · rw [if_neg hT] at he
      by_cases hF : (⟨q.literals ++ [(axis, LiteralValue.False)]⟩ :
          ProductTerm).matches_any terms = true
      · rw [if_pos hF] at he
        rcases mem_insert_term_cases he with h | h
        · exact hacc1 e h
        · rw [h]
          exact hkey_ext _
      · rw [if_neg hF] at he
        exact hacc1 e he

theorem foldl_merge_leaf_keys {terms : List ProductTerm} {axis : String}
    {K : List String} (hnd : (K ++ [axis]).Nodup) :
    ∀ (leaves : List TernaryNode) (acc : List ProductTerm),
      (∀ m ∈ leaves, ∀ q, m.built_term = some q → q.literals.map Prod.fst = K) →
      (∀ e ∈ acc, e.literals.map Prod.fst = K ++ [axis]) →
      ∀ e ∈ leaves.foldl (merge_leaf terms axis) acc,
        e.literals.map Prod.fst = K ++ [axis] := by
  intro leaves
  induction leaves with
  | nil => intro acc _ hacc e he; exact hacc e he
  | cons m rest ih =>
    intro acc hleaves hacc e he
    rw [List.foldl_cons] at he
    exact ih _ (fun m' hm' => hleaves m' (List.mem_cons_of_mem m hm'))
      (merge_leaf_keys hnd (hleaves m (List.mem_cons_self m rest)) hacc) e he

end TernaryTreeMinimization

namespace TernaryTreeMinimization

theorem merge_leaf_emits_cover {terms acc : List ProductTerm} {axis : String}
    {n : TernaryNode} {q u : ProductTerm} {x : LiteralValue}
    (hq : n.built_term = some q) (hwq : q.wf) (hfresh : q.hasKey axis = false)
    (hu : u ∈ terms) (hux : u.lookup axis = some x)
    (hpre : q.is_prefix_of u = true)
    (hlen : q.literals.length + 1 = u.literals.length)
    (hacc : ∀ e ∈ acc, e.wf) :
    ∃ e ∈ merge_leaf terms axis acc n, covers e u := by
  have hwfext : ∀ l : LiteralValue,
      (⟨q.literals ++ [(axis, l)]⟩ : ProductTerm).wf := fun l =>
    ProductTerm.wf_append_fresh hwq hfresh
  have hmatch : ∀ l : LiteralValue, u.lookup axis = some l →
      (⟨q.literals ++ [(axis, l)]⟩ : ProductTerm).matches_any terms = true := by
    intro l hl
    refine List.any_eq_true.mpr ⟨u, hu, ?_⟩
    rw [ProductTerm.matches', Bool.and_eq_true]
    constructor
    · rw [ProductTerm.is_prefix_of_append]
      have h1 : (⟨q.literals⟩ : ProductTerm).is_prefix_of u = true := hpre
      rw [h1, ProductTerm.is_prefix_of_single hl]
      rfl
    · show ((q.literals ++ [(axis, l)]).length == u.literals.length) = true
      rw [List.length_append]
      simp [hlen]
  have hcovD : covers (⟨q.literals ++ [(axis, LiteralValue.DontCare)]⟩ : ProductTerm) u :=
    covers_ext hpre (Or.inl rfl)
  have hcovx : covers (⟨q.literals ++ [(axis, x)]⟩ : ProductTerm) u :=
    covers_ext hpre (Or.inr hux)
  have hacc1 : ∀ e ∈ (if (⟨q.literals ++ [(axis, LiteralValue.DontCare)]⟩ :
      ProductTerm).matches_any terms then
        insert_term acc ⟨q.literals ++ [(axis, LiteralValue.DontCare)]⟩ else acc),
      e.wf := by
    split
    · intro e he
      rcases mem_insert_term_cases he with h | h
      · exact hacc e h
      · rw [h]
        exact hwfext _
    · exact hacc
  rw [merge_leaf_eq hq hfresh]
  cases x with
  | DontCare =>
    have hmD := hmatch _ hux
    rcases insert_term_mem_beq acc (hwfext LiteralValue.DontCare) with ⟨e, he, hbeq, hor⟩
    have hcov_e : covers e u := by
      rcases hor with h | h
      · exact covers_of_beq (hacc e h) (hwfext _) hbeq hcovD
      · rw [h]
        exact hcovD
    have hin : e ∈ (if (⟨q.literals ++ [(axis, LiteralValue.DontCare)]⟩ :
        ProductTerm).matches_any terms then
          insert_term acc ⟨q.literals ++ [(axis, LiteralValue.DontCare)]⟩ else acc) := by
      rw [if_pos hmD]
      exact he
    by_cases hT : (⟨q.literals ++ [(axis, LiteralValue.True)]⟩ :
        ProductTerm).matches_any terms = true
    · rw [if_pos hT]
      by_cases hF : (⟨q.literals ++ [(axis, LiteralValue.False)]⟩ :
          ProductTerm).matches_any terms = true
      · rw [if_pos hF, ProductTerm.merge_false_true hwq hfresh]
        exact ⟨e, mem_insert_term hin, hcov_e⟩
      · rw [if_neg hF]
        exact ⟨e, mem_insert_term hin, hcov_e⟩
    · rw [if_neg hT]
      by_cases hF : (⟨q.literals ++ [(axis, LiteralValue.False)]⟩ :
          ProductTerm).matches_any terms = true
      · rw [if_pos hF]
        exact ⟨e, mem_insert_term hin, hcov_e⟩
      · rw [if_neg hF]
        exact ⟨e, hin, hcov_e⟩
  | True =>
    have hmT := hmatch _ hux
    rw [if_pos hmT]
    by_cases hF : (⟨q.literals ++ [(axis, LiteralValue.False)]⟩ :
        ProductTerm).matches_any terms = true
    · rw [if_pos hF, ProductTerm.merge_false_true hwq hfresh]
      rcases insert_term_mem_beq _ (hwfext LiteralValue.DontCare) with ⟨e, he, hbeq, hor⟩
      refine ⟨e, he, ?_⟩
      rcases hor with h | h
      · exact covers_of_beq (hacc1 e h) (hwfext _) hbeq hcovD
      · rw [h]
        exact hcovD
    · rw [if_neg hF]
      rcases insert_term_mem_beq _ (hwfext LiteralValue.True) with ⟨e, he, hbeq, hor⟩
      refine ⟨e, he, ?_⟩
      rcases hor with h | h
      · exact covers_of_beq (hacc1 e h) (hwfext _) hbeq hcovx
      · rw [h]
        exact hcovx
  | False =>
    have hmF := hmatch _ hux
    by_cases hT : (⟨q.literals ++ [(axis, LiteralValue.True)]⟩ :
        ProductTerm).matches_any terms = true
    · rw [if_pos hT, if_pos hmF, ProductTerm.merge_false_true hwq hfresh]
      rcases insert_term_mem_beq _ (hwfext LiteralValue.DontCare) with ⟨e, he, hbeq, hor⟩
      refine ⟨e, he, ?_⟩
      rcases hor with h | h
      · exact covers_of_beq (hacc1 e h) (hwfext _) hbeq hcovD
      · rw [h]
        exact hcovD
    · rw [if_neg hT, if_pos hmF]
      rcases insert_term_mem_beq _ (hwfext LiteralValue.False) with ⟨e, he, hbeq, hor⟩
      refine ⟨e, he, ?_⟩
      rcases hor with h | h
      · exact covers_of_beq (hacc1 e h) (hwfext _) hbeq hcovx
      · rw [h]
        exact hcovx

end TernaryTreeMinimization

namespace TernaryTreeMinimization

theorem foldl_merge_leaf_emits_keys {terms : List ProductTerm} {axis : String}
    {K : List String} {P : ProductTerm → Prop} (hnd : (K ++ [axis]).Nodup) :
    ∀ (leaves : List TernaryNode) {n : TernaryNode}, n ∈ leaves →
      (∀ m ∈ leaves, ∀ q, m.built_term = some q → q.literals.map Prod.fst = K) →
      (∀ acc, (∀ e ∈ acc, e.wf) → ∃ e ∈ merge_leaf terms axis acc n, P e) →
      ∀ acc, (∀ e ∈ acc, e.literals.map Prod.fst = K ++ [axis]) →
      ∃ e ∈ leaves.foldl (merge_leaf terms axis) acc, P e := by
  intro leaves
  induction leaves with
  | nil => intro n hn; cases hn
  | cons m rest ih =>
    intro n hn hleaves hemit acc hacc
    have haccwf : ∀ e ∈ acc, e.wf := by
      intro e he
      rw [ProductTerm.wf, hacc e he]
      exact hnd
    rcases List.mem_cons.mp hn with he | hm
    · subst he
      rcases hemit acc haccwf with ⟨e, he1, he2⟩
      rw [List.foldl_cons]
      exact ⟨e, mem_foldl_merge_leaf_of_mem rest _ he1, he2⟩
    · rw [List.foldl_cons]
      exact ih hm (fun m' hm' => hleaves m' (List.mem_cons_of_mem m hm')) hemit _
        (merge_leaf_keys hnd (hleaves m (List.mem_cons_self m rest)) hacc)

theorem frontier_mem (terms : List ProductTerm) {u : ProductTerm} (hu : u ∈ terms)
    (vo : List String) (h2 : 2 ≤ vo.length) (hnd : vo.Nodup)
    (hkeys : ∀ v ∈ vo, u.hasKey v = true) :
    ∃ n ∈ frontier terms vo, n.built_term = some ⟨restrict u vo.dropLast⟩ := by
  cases vo with
  | nil => simp at h2
  | cons v tail =>
    cases tail with
    | nil => simp at h2
    | cons w rest =>
      have hdl : (v :: w :: rest).dropLast = v :: (w :: rest).dropLast := by simp
      rcases ProductTerm.hasKey_iff_lookup_isSome.mp
        (hkeys v (List.mem_cons_self v _)) with ⟨x, hx⟩
      have hpre1 : (⟨[(v, x)]⟩ : ProductTerm).is_prefix_of u = true :=
        ProductTerm.is_prefix_of_single hx
      have hany : (⟨[(v, x)]⟩ : ProductTerm).is_prefix_of_any terms = true :=
        List.any_eq_true.mpr ⟨u, hu, hpre1⟩
      have hc0 : (⟨some w, some ⟨[(v, x)]⟩⟩ : TernaryNode) ∈
          build_children ⟨(v :: w :: rest).head?, none⟩ terms v w :=
        (@mem_build_children_fresh ⟨(v :: w :: rest).head?, none⟩ terms v w
          ⟨some w, some ⟨[(v, x)]⟩⟩ rfl).mpr ⟨x, hany, rfl⟩
      have hchild : (⟨some w, some ⟨[(v, x)]⟩⟩ : TernaryNode) ∈
          ([⟨(v :: w :: rest).head?, none⟩] : List TernaryNode).foldl
            (fun acc m => acc ++ build_children m terms v w) [] :=
        (mem_foldl_append _ _ [] _).mpr
          (Or.inr ⟨_, List.mem_cons_self _ _, hc0⟩)
      have hnodup_dl : (v :: (w :: rest).dropLast).Nodup := by
        rw [← hdl]
        exact List.Sublist.nodup (List.dropLast_sublist _) hnd
      have hnd' : (w :: rest).dropLast.Nodup := (List.nodup_cons.mp hnodup_dl).2
      have hvnot : v ∉ (w :: rest).dropLast := (List.nodup_cons.mp hnodup_dl).1
      have hfresh' : ∀ v' ∈ (w :: rest).dropLast,
          (⟨[(v, x)]⟩ : ProductTerm).hasKey v' = false := by
        intro v' hv'
        rw [ProductTerm.hasKey]
        simp only [List.any_cons, List.any_nil, Bool.or_false]
        rw [beq_eq_false_iff_ne]
        intro he
        exact hvnot (he ▸ hv')
      have hkeys' : ∀ v' ∈ (w :: rest).dropLast, u.hasKey v' = true := by
        intro v' hv'
        refine hkeys v' ?_
        have hmem : v' ∈ (v :: w :: rest).dropLast := by
          rw [hdl]
          exact List.mem_cons_of_mem v hv'
        exact (List.dropLast_sublist _).mem hmem
      rw [frontier, build]
      rcases build_mem terms hu (w :: rest) _ ⟨[(v, x)]⟩
        ⟨_, hchild, rfl⟩ hpre1 hfresh' hkeys' hnd' with ⟨n, hn, hterm⟩
      refine ⟨n, hn, ?_⟩
      rw [hterm, hdl, restrict_cons _ hx]
      rfl

theorem build_and_merge_ok_len {terms : List ProductTerm} {vo : List String}
    {r : List ProductTerm} (hok : build_and_merge terms vo = .ok r) :
    2 ≤ vo.length := by
  by_cases h : vo.length < 2
  · rw [build_and_merge, if_pos h] at hok
    cases hok
  · omega

theorem build_and_merge_ok_eq {terms : List ProductTerm} {vo : List String}
    {r : List ProductTerm} (hok : build_and_merge terms vo = .ok r) :
    r = merge (frontier terms vo) terms (vo.getLastD no_variable) := by
  have h2 := build_and_merge_ok_len hok
  have hne : vo ≠ [] := by
    intro h
    rw [h] at h2
    simp at h2
  rw [build_and_merge, if_neg (by omega)] at hok
  simp only [build_order terms vo _ hne, List.headD_cons] at hok
  injection hok with hok
  exact hok.symm

theorem build_and_merge_shape {terms : List ProductTerm} {vo : List String}
    {r : List ProductTerm} (hnd : vo.Nodup)
    (hok : build_and_merge terms vo = .ok r) :
    ∀ e ∈ r, e.literals.map Prod.fst = vo := by
  have h2 := build_and_merge_ok_len hok
  have hne : vo ≠ [] := by
    intro h
    rw [h] at h2
    simp at h2
  have hnd2 : (vo.dropLast ++ [vo.getLastD no_variable]).Nodup := by
    rw [dropLast_append_getLastD hne]
    exact hnd
  have hleaf : ∀ m ∈ frontier terms vo, ∀ q, m.built_term = some q →
      q.literals.map Prod.fst = vo.dropLast := by
    intro m hm q hq
    rcases frontier_keys terms vo h2 hnd m hm with ⟨p, hp, hpk⟩
    rw [hq] at hp
    injection hp with hp
    rw [hp]
    exact hpk
  intro e he
  rw [build_and_merge_ok_eq hok] at he
  have := foldl_merge_leaf_keys hnd2 (frontier terms vo) [] hleaf (by simp) e he
  rw [dropLast_append_getLastD hne] at this
  exact this

theorem build_and_merge_covers {terms : List ProductTerm} {vo : List String}
    {u : ProductTerm} {r : List ProductTerm}
    (hu : u ∈ terms) (hnd : vo.Nodup)
    (hperm : List.Perm (u.literals.map Prod.fst) vo)
    (hok : build_and_merge terms vo = .ok r) :
    ∃ e ∈ r, covers e u := by
  have h2 := build_and_merge_ok_len hok
  have hne : vo ≠ [] := by
    intro h
    rw [h] at h2
    simp at h2
  have hkeys : ∀ v ∈ vo, u.hasKey v = true := fun v hv =>
    ProductTerm.hasKey_iff_mem_keys.mpr (hperm.mem_iff.mpr hv)
  have haxis_mem : vo.getLastD no_variable ∈ vo := by
    rw [List.getLastD_eq_getLast?, List.getLast?_eq_getLast_of_ne_nil hne]
    exact List.getLast_mem hne
  rcases ProductTerm.hasKey_iff_lookup_isSome.mp (hkeys _ haxis_mem) with ⟨x, hx⟩
  rcases frontier_mem terms hu vo h2 hnd hkeys with ⟨n, hn, hterm⟩
  have hnd2 : (vo.dropLast ++ [vo.getLastD no_variable]).Nodup := by
    rw [dropLast_append_getLastD hne]
    exact hnd
  have hkeys_dl : ∀ v ∈ vo.dropLast, u.hasKey v = true := fun v hv =>
    hkeys v ((List.dropLast_sublist vo).mem hv)
  have hqkeys : (⟨restrict u vo.dropLast⟩ : ProductTerm).literals.map Prod.fst
      = vo.dropLast := restrict_keys hkeys_dl
  have hwq : (⟨restrict u vo.dropLast⟩ : ProductTerm).wf := by
    rw [ProductTerm.wf, hqkeys]
    exact (List.nodup_append.mp hnd2).1
  have hfresh : (⟨restrict u vo.dropLast⟩ : ProductTerm).hasKey
      (vo.getLastD no_variable) = false := by
    cases hk : (⟨restrict u vo.dropLast⟩ : ProductTerm).hasKey
        (vo.getLastD no_variable) with
    | false => rfl
    | true =>
      have := ProductTerm.hasKey_iff_mem_keys.mp hk
      rw [hqkeys] at this
      rcases List.nodup_append.mp hnd2 with ⟨_, _, hdisj⟩
      exact absurd (List.mem_singleton_self _) (hdisj this)
  have hlen : (⟨restrict u vo.dropLast⟩ : ProductTerm).literals.length + 1
      = u.literals.length := by
    have h1 : (⟨restrict u vo.dropLast⟩ : ProductTerm).literals.length
        = vo.dropLast.length := by
      have hc := congrArg List.length hqkeys
      rwa [List.length_map] at hc
    have h2' : u.literals.length = vo.length := by
      have := hperm.length_eq
      rw [List.length_map] at this
      exact this
    rw [h1, h2', List.length_dropLast]
    omega
  have hleaf : ∀ m ∈ frontier terms vo, ∀ q, m.built_term = some q →
      q.literals.map Prod.fst = vo.dropLast := by
    intro m hm q hq
    rcases frontier_keys terms vo h2 hnd m hm with ⟨p, hp, hpk⟩
    rw [hq] at hp
    injection hp with hp
    rw [hp]
    exact hpk
  rw [build_and_merge_ok_eq hok, merge]
  exact foldl_merge_leaf_emits_keys hnd2 (frontier terms vo) hn hleaf
    (fun acc haccwf =>
      merge_leaf_emits_cover hterm hwq hfresh hu hx is_prefix_of_restrict hlen haccwf)
    [] (by simp)

theorem mem_foldl_insert_subset :
    ∀ (l acc : List ProductTerm) {e : ProductTerm},
      e ∈ l.foldl insert_term acc → e ∈ acc ∨ e ∈ l := by
  intro l
  induction l with
  | nil => intro acc e he; exact Or.inl he
  | cons t rest ih =>
    intro acc e he
    rw [List.foldl_cons] at he
    rcases ih _ he with h | h
    · rcases mem_insert_term_cases h with h1 | h1
      · exact Or.inl h1
      · exact Or.inr (h1 ▸ List.mem_cons_self t rest)
    · exact Or.inr (List.mem_cons_of_mem t h)

theorem apply_rounds_cover :
    ∀ (k : Nat) (s : List ProductTerm) (o : List String),
      o.Nodup →
      (∀ t ∈ s, List.Perm (t.literals.map Prod.fst) o) →
      ∀ u ∈ s, ∃ e ∈ (apply_rounds k s o).1, covers e u := by
  intro k
  induction k with
  | zero => intro s o _ _ u hu; exact ⟨u, hu, covers_refl u⟩
  | succ k ih =>
    intro s o hnd hinv u hu
    rw [apply_rounds]
    cases hbm : build_and_merge s o with
    | error msg =>
      have hst : apply_round s o = (s, o) := by rw [apply_round, hbm]
      simp only [hst]
      exact ih s o hnd hinv u hu
    | ok r =>
      have hst : apply_round s o = (r, rotate o) := by rw [apply_round, hbm]
      simp only [hst]
      rcases build_and_merge_covers hu hnd (hinv u hu) hbm with ⟨e, her, hcov⟩
      have hshape := build_and_merge_shape hnd hbm
      have hrot_perm : List.Perm o (rotate o) := by
        cases o with
        | nil => exact List.Perm.refl _
        | cons a l => exact (List.perm_append_singleton a l).symm
      have hnd' : (rotate o).Nodup := hrot_perm.nodup_iff.mp hnd
      have hinv' : ∀ t ∈ r, List.Perm (t.literals.map Prod.fst) (rotate o) := by
        intro t ht
        rw [hshape t ht]
        exact hrot_perm
      rcases ih r (rotate o) hnd' hinv' e her with ⟨f, hf, hcov2⟩
      exact ⟨f, hf, covers_trans hcov2 hcov⟩

end TernaryTreeMinimization

/-! ### Claim C7 (amended): semantic coverage completeness of `apply` -/

/-- **C7** (amended): for a duplicate-free variable ordering and an input set
whose terms are key-distinct and use exactly the ordering's variables, every
input term is covered semantically by some term of the set returned by
`apply`: every assignment satisfying the input term satisfies that output
term. -/
theorem c7_semantic_coverage (terms : List ProductTerm) (vo : List String)
    (hnd : vo.Nodup)
    (hterms : ∀ t ∈ terms, List.Perm (t.literals.map Prod.fst) vo) :
    ∀ u ∈ terms, ∀ r, TernaryTreeMinimization.apply terms vo = .ok r →
      ∃ e ∈ r, covers e u := by
  intro u hu r hr
  rw [TernaryTreeMinimization.apply] at hr
  injection hr with hr
  have hu_wf : u.wf := by
    rw [ProductTerm.wf]
    exact (hterms u hu).nodup_iff.mpr hnd
  have hcontains : TernaryTreeMinimization.contains
      (terms.foldl TernaryTreeMinimization.insert_term []) u = true := by
    rw [TernaryTreeMinimization.contains_foldl_insert]
    have : TernaryTreeMinimization.contains terms u = true :=
      List.any_eq_true.mpr ⟨u, hu, ProductTerm.beq_refl hu_wf⟩
    rw [this]
    simp
  rcases List.any_eq_true.mp hcontains with ⟨e0, he0, hbeq⟩
  have he0_terms : e0 ∈ terms := by
    rcases TernaryTreeMinimization.mem_foldl_insert_subset terms [] he0 with h | h
    · cases h
    · exact h
  have he0_wf : e0.wf := by
    rw [ProductTerm.wf]
    exact (hterms e0 he0_terms).nodup_iff.mpr hnd
  have hcov0 : covers e0 u := covers_of_beq he0_wf hu_wf hbeq (covers_refl u)
  have hinv : ∀ t ∈ terms.foldl TernaryTreeMinimization.insert_term [],
      List.Perm (t.literals.map Prod.fst) vo := by
    intro t ht
    rcases TernaryTreeMinimization.mem_foldl_insert_subset terms [] ht with h | h
    · cases h
    · exact hterms t h
  rcases TernaryTreeMinimization.apply_rounds_cover (vo.length + 1)
    (terms.foldl TernaryTreeMinimization.insert_term []) vo hnd hinv e0 he0
    with ⟨f, hf, hcov2⟩
  rw [hr] at hf
  exact ⟨f, hf, covers_trans hcov2 hcov0⟩

/-- Witness for the amended C7 at spec scenario 1. -/
theorem c7_semantic_coverage_witness :
    ([vA, vB] : List String).Nodup ∧
    (∀ t ∈ scenario1, List.Perm (t.literals.map Prod.fst) [vA, vB]) ∧
    (∀ u ∈ scenario1, ∀ r, TernaryTreeMinimization.apply scenario1 [vA, vB] = .ok r →
      ∃ e ∈ r, covers e u) :=
  ⟨by decide, by decide,
    c7_semantic_coverage scenario1 [vA, vB] (by decide) (by decide)⟩
